import Mathlib

/-!
# The ledger tracking snapshot of `app/tracking.go`

A shallow embedding of `trackingAll`, `exportVestingSupply` and `exportRanking`
(namespace `app`; namespace `app.memory` has the selection of `exportRanking` once more,
on the backing arrays of its slices), of the random parameters of `x/market/simulation/genesis.go`
(namespace `simulation`) and of the query handlers of `x/wasm/client/rest/query.go`
(namespace `wasm`).

The numeric types of the Cosmos SDK that the snapshot works with are modelled first
(namespace `sdk`): `sdk.Int` is an arbitrary-precision integer (Lean `Int`), `sdk.Dec`
is a fixed-point decimal with 18 fractional digits held as a scaled integer, and
`sdk.Coins` is a list of coins kept sorted by denomination.

Conventions of the embedding
* A Go panic is the `none` of `Option`: division by a zero `Dec`, an operation on the
  zero value `Dec{}` (nil big integer) that a map miss yields, a negative amount handed
  to `NewCoin`, a slice index out of range.
* The range checks of the fixed-point operations of `trackingAll` are modelled:
  `Dec.Mul` and `Dec.Quo` panic when the result takes more than 315 bits, `TruncateInt`
  when it takes more than 255. The range check of the additions (`Int.Add`, `Dec.Add`,
  the coin arithmetic) is outside the model: sums are taken to stay in range.
* Denominations are opaque identifiers with the order the SDK sorts denomination
  strings by; they are natural numbers here. Denominations are taken to be well
  formed, so the denomination check of `NewCoin` and `AmountOf` is not modelled.
* What a function does outside the program (files written, errors logged, responses
  written, queries sent to the node) is the value it returns; the codec, the file
  system, the clock, the node and the random source are parameters.
-/

namespace sdk

/-- A coin denomination (an identifier, ordered as the denomination strings are). -/
abbrev Denom := Nat

/-- An account address in its string form. -/
abbrev AccAddress := String

/-- A validator operator address in its string form. -/
abbrev ValAddress := String

/-- The type `sdk.Dec`: the decimal `int / 10^18`. -/
structure Dec where
  int : Int
deriving DecidableEq, Repr

/-- Number of fractional digits of a `Dec`. -/
def Precision : Nat := 18

/-- The constant `precisionReuse = 10^Precision`. -/
def precisionReuse : Int := 1000000000000000000

/-- The constant `fivePrecision = precisionReuse / 2`. -/
def fivePrecision : Int := 500000000000000000

/-- The body of `chopPrecisionAndRound` for a non-negative argument: drop 18 digits,
rounding half to even. `QuoRem` is the truncated division of `math/big`. -/
def chopPrecisionAndRoundNonneg (d : Int) : Int :=
  let quo := Int.tdiv d precisionReuse
  let rem := Int.tmod d precisionReuse
  if rem = 0 then quo
  else if rem < fivePrecision then quo
  else if fivePrecision < rem then quo + 1
  else if quo % 2 = 0 then quo
  else quo + 1

/-- The function `chopPrecisionAndRound`: a negative argument is negated, chopped and
negated back. -/
def chopPrecisionAndRound (d : Int) : Int :=
  if d < 0 then -(chopPrecisionAndRoundNonneg (-d)) else chopPrecisionAndRoundNonneg d

/-- The function `chopPrecisionAndTruncate`: truncated division by `10^18`. -/
def chopPrecisionAndTruncate (d : Int) : Int :=
  Int.tdiv d precisionReuse

/-- The conversion `Int.ToDec` (`NewDecFromInt`). -/
def NewDecFromInt (i : Int) : Dec :=
  ⟨i * precisionReuse⟩

/-- The constant `DecimalPrecisionBits`: the bits that 18 decimal digits take. -/
def DecimalPrecisionBits : Nat := 60

/-- The constant `maxBitLen` of `sdk.Int`. -/
def maxBitLen : Nat := 255

/-- The method `Dec.Mul`: the product, rounded half to even at 18 digits. It panics
("Int overflow") when `chopped.BitLen() > 255+DecimalPrecisionBits`, that is when the
absolute value of the result reaches `2^315 = 2^255 * 2^60`. -/
def Dec.Mul (d d2 : Dec) : Option Dec :=
  let chopped := chopPrecisionAndRound (d.int * d2.int)
  if 2 ^ 255 * 2 ^ DecimalPrecisionBits ≤ chopped.natAbs then none else some ⟨chopped⟩

/-- The method `Dec.Quo`: the dividend is scaled by `10^36`, divided with truncation and
then rounded at 18 digits. Division by zero panics, and so does a result whose bit
length exceeds `255+DecimalPrecisionBits`. -/
def Dec.Quo (d d2 : Dec) : Option Dec :=
  if d2.int = 0 then none
  else
    let chopped :=
      chopPrecisionAndRound (Int.tdiv (d.int * precisionReuse * precisionReuse) d2.int)
    if 2 ^ 255 * 2 ^ DecimalPrecisionBits ≤ chopped.natAbs then none else some ⟨chopped⟩

/-- The constructor `NewIntFromBigInt`: panics when `i.BitLen() > maxBitLen`. -/
def NewIntFromBigInt (i : Int) : Option Int :=
  if 2 ^ maxBitLen ≤ i.natAbs then none else some i

/-- The method `Dec.TruncateInt`: `NewIntFromBigInt` of the truncated value. -/
def Dec.TruncateInt (d : Dec) : Option Int :=
  NewIntFromBigInt (chopPrecisionAndTruncate d.int)

/-- The type `sdk.Coin`. -/
structure Coin where
  denom : Denom
  amount : Int
deriving DecidableEq, Repr

/-- The type `sdk.Coins`. -/
abbrev Coins := List Coin

/-- The constructor `NewCoin`: panics on a negative amount. -/
def NewCoin (denom : Denom) (amount : Int) : Option Coin :=
  if amount < 0 then none else some ⟨denom, amount⟩

/-- The helper `removeZeroCoins`. -/
def removeZeroCoins (coins : Coins) : Coins :=
  coins.filter (fun coin => decide (coin.amount ≠ 0))

/-- The method `Coins.Sort`: sorts by denomination. -/
def Coins.Sort (coins : Coins) : Coins :=
  coins.insertionSort (fun a b => a.denom ≤ b.denom)

/-- The method `Coins.IsValid`: denominations strictly increasing, amounts positive. -/
def Coins.IsValid (coins : Coins) : Prop :=
  (coins.map Coin.denom).Sorted (fun a b => a < b) ∧ ∀ coin ∈ coins, 0 < coin.amount

instance (coins : Coins) : Decidable coins.IsValid := by
  unfold Coins.IsValid
  infer_instance

/-- The constructor `NewCoins`: zero coins are dropped, the rest sorted; a duplicate
denomination or an invalid set panics. -/
def NewCoins (coins : List Coin) : Option Coins :=
  let newCoins := removeZeroCoins coins
  if newCoins.length = 0 then some []
  else
    let sorted := Coins.Sort newCoins
    if sorted.IsValid then some sorted else none

/-- The inner part of `safeAdd` for a fixed head `coinA` of the first set: walks the
second set; `addRestA` adds what follows `coinA` in the first set. -/
def safeAddFrom (coinA : Coin) (restA : Coins) (addRestA : Coins → Coins) : Coins → Coins
  | [] => removeZeroCoins (coinA :: restA)
  | coinB :: restB =>
    if coinA.denom < coinB.denom then
      (if coinA.amount ≠ 0 then [coinA] else []) ++ addRestA (coinB :: restB)
    else if coinA.denom = coinB.denom then
      (if coinA.amount + coinB.amount ≠ 0 then [⟨coinA.denom, coinA.amount + coinB.amount⟩]
        else []) ++ addRestA restB
    else
      (if coinB.amount ≠ 0 then [coinB] else []) ++ safeAddFrom coinA restA addRestA restB

/-- The method `Coins.safeAdd`: merges two denomination-sorted sets, adding the amounts
of equal denominations and leaving zero coins out. -/
def Coins.safeAdd : Coins → Coins → Coins
  | [], coinsB => removeZeroCoins coinsB
  | coinA :: restA, coinsB => safeAddFrom coinA restA (Coins.safeAdd restA) coinsB

/-- The method `Coins.Add`. -/
def Coins.Add (coins coinsB : Coins) : Coins :=
  coins.safeAdd coinsB

/-- The method `Coins.AmountOf`: the amount held in a denomination, zero when the set
has no coin of it. The SDK finds the coin by bisection of the sorted set, which on a
sorted set is the coin this search finds. -/
def Coins.AmountOf : Coins → Denom → Int
  | [], _ => 0
  | coin :: rest, denom => if coin.denom = denom then coin.amount else Coins.AmountOf rest denom

/-- The method `Coins.IsAnyGTE`: some coin of `coins` is at least the amount `coinsB`
holds in its denomination, that amount being non-zero. -/
def Coins.IsAnyGTE (coins coinsB : Coins) : Bool :=
  if coinsB.length = 0 then false
  else coins.any (fun coin =>
    let amt := coinsB.AmountOf coin.denom
    decide (amt ≤ coin.amount) && !decide (amt = 0))

end sdk

namespace app

open sdk

/-- Modelled from the spec: the constant `core.MicroUnit`, declared outside the given
sources; the spec gives the floor as 1,000,000, one unit at the micro scale. -/
def MicroUnit : Int := 1000000

/-- A staking validator as `trackingAll` reads it. -/
structure Validator where
  /-- The result of `GetOperator().String()`. -/
  operator : ValAddress
  /-- The result of `GetBondedTokens()`. -/
  bondedTokens : Int
  /-- The result of `GetDelegatorShares()`. -/
  delegatorShares : Dec
deriving DecidableEq, Repr

/-- A delegation of an account. -/
structure Delegation where
  /-- The result of `GetValidatorAddr().String()`. -/
  validatorAddr : ValAddress
  /-- The result of `GetShares()`. -/
  shares : Dec
deriving DecidableEq, Repr

/-- An entry of an unbonding delegation. -/
structure UnbondingDelegationEntry where
  balance : Int
deriving DecidableEq, Repr

/-- An unbonding delegation of an account. -/
structure UnbondingDelegation where
  entries : List UnbondingDelegationEntry
deriving DecidableEq, Repr

/-- An account of the ledger. -/
structure Account where
  /-- The result of `GetAddress()`. -/
  address : AccAddress
  /-- The result of `GetCoins()`. -/
  coins : Coins
  /-- For an `auth.VestingAccount`, the function `GetVestingCoins` of the block time;
  `none` for an account without a vesting schedule. -/
  vesting : Option (Nat → Coins)

instance : Inhabited Account := ⟨⟨"", [], none⟩⟩

/-- The state that `trackingAll` reads through the context and the keepers. -/
structure Ledger where
  /-- The time of the block header. -/
  blockTime : Nat
  /-- The result of `stakingKeeper.GetAllValidators`. -/
  validators : List Validator
  /-- The result of `oracleKeeper.Whitelist`. -/
  whitelist : List Denom
  /-- The accounts in the order `accountKeeper.IterateAccounts` visits them. -/
  accounts : List Account
  /-- The result of `stakingKeeper.GetAllDelegatorDelegations` for an address. -/
  delegations : AccAddress → List Delegation
  /-- The unbonding delegations of an address that `GetUnbondingDelegations` reads
  from; the call retrieves at most the number asked for. -/
  unbondingDelegations : AccAddress → List UnbondingDelegation
  /-- The result of `stakingKeeper.BondDenom`. -/
  bondDenom : Denom

/-- Lines 20-22 of `trackingAll`: the loop over the validators, from a given state of
the map. An assignment is an entry put in front, a lookup finds the latest; `Quo`
panics on zero delegator shares. -/
def tokenShareRatesFrom : List (ValAddress × Dec) → List Validator →
    Option (List (ValAddress × Dec))
  | rates, [] => some rates
  | rates, validator :: rest =>
    match (NewDecFromInt validator.bondedTokens).Quo validator.delegatorShares with
    | none => none
    | some rate => tokenShareRatesFrom ((validator.operator, rate) :: rates) rest

/-- Lines 19-22 of `trackingAll`: the map from operator to bonded tokens divided by
delegator shares. -/
def tokenShareRates (validators : List Validator) : Option (List (ValAddress × Dec)) :=
  tokenShareRatesFrom [] validators

/-- Lines 29-31 of `trackingAll` with the floor of each denomination as a parameter:
one coin appended for each whitelisted denomination. -/
def floorCoinsFrom (floor : Denom → Int) : Coins → List Denom → Option Coins
  | minCoins, [] => some minCoins
  | minCoins, denom :: rest =>
    match NewCoin denom (floor denom) with
    | none => none
    | some coin => floorCoinsFrom floor (minCoins ++ [coin]) rest

/-- Lines 28-33 of `trackingAll` with the floor of each denomination as a parameter. -/
def floorCoins (floor : Denom → Int) (denoms : List Denom) : Option Coins :=
  (floorCoinsFrom floor [] denoms).map Coins.Sort

/-- Lines 28-33 of `trackingAll`: the floor is `OneInt().MulRaw(core.MicroUnit)`. -/
def minCoins (denoms : List Denom) : Option Coins :=
  floorCoins (fun _ => 1 * MicroUnit) denoms

/-- Lines 48-50 of `trackingAll`: the tokens of one delegation. A validator address
missing from the map yields the zero value `Dec{}`, on which `Mul` panics; `Mul` and
`TruncateInt` panic when their result is out of range. -/
def delegationAmt (rates : List (ValAddress × Dec)) (delegation : Delegation) : Option Int :=
  match rates.lookup delegation.validatorAddr with
  | none => none
  | some tokenShareRate =>
    match delegation.shares.Mul tokenShareRate with
    | none => none
    | some product => product.TruncateInt

/-- Lines 47-53 of `trackingAll`: the loop over the delegations, from a given value of
`stakingAmt`. -/
def stakingAmtFrom (rates : List (ValAddress × Dec)) : Int → List Delegation → Option Int
  | stakingAmt, [] => some stakingAmt
  | stakingAmt, delegation :: rest =>
    match delegationAmt rates delegation with
    | none => none
    | some amt => stakingAmtFrom rates (stakingAmt + amt) rest

/-- Lines 44-53 of `trackingAll`: the sum of the tokens of the delegations. -/
def stakingAmt (rates : List (ValAddress × Dec)) (delegations : List Delegation) : Option Int :=
  stakingAmtFrom rates 0 delegations

/-- Lines 57-60 of `trackingAll`: the sum of the balances of the entries of one
unbonding delegation. -/
def undelegationAmt (undelegation : UnbondingDelegation) : Int :=
  undelegation.entries.foldl (fun amt entry => amt + entry.balance) 0

/-- Lines 55-63 of `trackingAll`. The statement `unbondingAmt.Add(undelegationAmt)`
computes a sum and drops it (`Add` returns a new value), so `unbondingAmt` keeps the
value it had. -/
def unbondingAmt (undelegations : List UnbondingDelegation) : Int :=
  undelegations.foldl
    (fun unbondingAmt undelegation =>
      let _dropped := unbondingAmt + undelegationAmt undelegation
      unbondingAmt)
    0

/-- Lines 66-67 of `trackingAll`: the coins the account is given by `SetCoins`, from
the two amounts. -/
def addStakingCoins (bondDenom : Denom) (coins : Coins) (stakingAmt unbondingAmt : Int) :
    Option Coins :=
  match NewCoin bondDenom (stakingAmt + unbondingAmt) with
  | none => none
  | some coin =>
    match NewCoins [coin] with
    | none => none
    | some stakingCoins => some (coins.Add stakingCoins)

/-- Lines 44-67 of `trackingAll`: the coins the account is given by `SetCoins`. The
call `GetUnbondingDelegations(ctx, addr, 100)` retrieves at most 100 of them. -/
def effectiveCoins (ledger : Ledger) (rates : List (ValAddress × Dec)) (acc : Account) :
    Option Coins :=
  match stakingAmt rates (ledger.delegations acc.address) with
  | none => none
  | some stakingAmt =>
    addStakingCoins ledger.bondDenom acc.coins stakingAmt
      (unbondingAmt ((ledger.unbondingDelegations acc.address).take 100))

/-- Lines 38-41 of `trackingAll`: the vesting total after the account is seen. -/
def addVestingCoins (blockTime : Nat) (vestingCoins : Coins) (acc : Account) : Coins :=
  match acc.vesting with
  | some getVestingCoins => vestingCoins.Add (getVestingCoins blockTime)
  | none => vestingCoins

/-- Lines 37-75 of `trackingAll`: the callback run on each account, on the state
`(accs, vestingCoins)`. -/
def visitAccount (ledger : Ledger) (rates : List (ValAddress × Dec)) (minCoins : Coins)
    (state : List Account × Coins) (acc : Account) : Option (List Account × Coins) :=
  let vestingCoins := addVestingCoins ledger.blockTime state.2 acc
  match effectiveCoins ledger rates acc with
  | none => none
  | some coins =>
    if coins.IsAnyGTE minCoins then some (state.1 ++ [{ acc with coins := coins }], vestingCoins)
    else some (state.1, vestingCoins)

/-- The iteration `IterateAccounts` of `trackingAll`: the callback never stops it, so
every account is visited in turn. -/
def visitAccounts (ledger : Ledger) (rates : List (ValAddress × Dec)) (minCoins : Coins) :
    List Account × Coins → List Account → Option (List Account × Coins)
  | state, [] => some state
  | state, acc :: rest =>
    match visitAccount ledger rates minCoins state acc with
    | none => none
    | some next => visitAccounts ledger rates minCoins next rest

/-- The function `trackingAll` up to the two exports it starts: the result is the
account list handed to `exportRanking` and the total handed to `exportVestingSupply`. -/
def trackingAll (ledger : Ledger) : Option (List Account × Coins) :=
  match tokenShareRates ledger.validators with
  | none => none
  | some rates =>
    match minCoins ledger.whitelist with
    | none => none
    | some minCoins => visitAccounts ledger rates minCoins ([], []) ledger.accounts

/-- The type `ExportAccount`. -/
structure ExportAccount where
  address : AccAddress
  amount : Int
deriving DecidableEq, Repr

/-- The constructor `NewExportAccount`. -/
def NewExportAccount (address : AccAddress) (amount : Int) : ExportAccount :=
  { address := address, amount := amount }

/-- Lines 127-140 of `exportRanking`: the scan of the pool from position `idx` on, with
the variables `(topRankerIdx, topRankerAmt, topRankerAddr)`. -/
def scanTop (denom : Denom) : List Account → Nat → Nat × Int × AccAddress →
    Nat × Int × AccAddress
  | [], _, top => top
  | acc :: rest, idx, top =>
    let addr := acc.address
    let amt := acc.coins.AmountOf denom
    if idx = 0 ∨ top.2.1 < amt then scanTop denom rest (idx + 1) (idx, amt, addr)
    else scanTop denom rest (idx + 1) top

/-- Lines 143-144 of `exportRanking`: the slot `idx` takes the last element and the
slice loses its last element; an empty slice makes the index expression panic. -/
def removeSwapLast {α : Type} (xs : List α) (idx : Nat) : Option (List α) :=
  match xs.getLast? with
  | none => none
  | some last => some (xs.set idx last).dropLast

/-- Lines 127-144 of `exportRanking`: one round, giving the entry appended to the
ranking and the pool left. -/
def selectRound (denom : Denom) (tmpAccs : List Account) :
    Option (ExportAccount × List Account) :=
  let top := scanTop denom tmpAccs 0 (0, 0, "")
  match removeSwapLast tmpAccs top.1 with
  | none => none
  | some rest => some (NewExportAccount top.2.2 top.2.1, rest)

/-- Lines 125-145 of `exportRanking`: the rounds still to run, on the pool and the
ranking built so far. -/
def selectLoop (denom : Denom) : Nat → List Account → List ExportAccount →
    Option (List ExportAccount)
  | 0, _, topRankerList => some topRankerList
  | rounds + 1, tmpAccs, topRankerList =>
    match selectRound denom tmpAccs with
    | none => none
    | some (entry, rest) => selectLoop denom rounds rest (topRankerList ++ [entry])

/-- Lines 113-116 of `exportRanking`. -/
def maxEntries (accs : List Account) : Nat :=
  if accs.length < 1000 then accs.length else 1000

/-- Lines 120-145 of `exportRanking`: the ranking built for one denomination, on a copy
of the account list. -/
def ranking (accs : List Account) (denom : Denom) : Option (List ExportAccount) :=
  selectLoop denom (maxEntries accs) accs []

/-- The pool `tmpAccs` of `exportRanking` once the given number of rounds have run
(lines 143-144 applied round after round to the copy of the account list). -/
def poolAfter (denom : Denom) : Nat → List Account → Option (List Account)
  | 0, tmpAccs => some tmpAccs
  | rounds + 1, tmpAccs =>
    match selectRound denom tmpAccs with
    | none => none
    | some (_, rest) => poolAfter denom rounds rest


/-! ## The exports -/

/-- The name of an artifact: `/tmp/vesting-<time>.json` or
`/tmp/tracking-<denom>-<time>.json`. -/
inductive FileName where
  | vesting (time : String)
  | tracking (denom : Denom) (time : String)
deriving DecidableEq, Repr

/-- What the two exports call outside the program. -/
structure Env where
  /-- The call `codec.MarshalJSONIndent(app.cdc, vestingCoins)`: the bytes or the error. -/
  marshalCoins : Coins → Except String (List Nat)
  /-- The call `codec.MarshalJSONIndent(app.cdc, topRankerList)`: the bytes or the error. -/
  marshalRanking : List ExportAccount → Except String (List Nat)
  /-- The call `ioutil.WriteFile`: the error, if the file could not be written. -/
  writeFile : FileName → List Nat → Option String
  /-- The text of `time.Now().Format(time.RFC3339)` at the n-th artifact of an export. -/
  now : Nat → String

/-- What an export leaves behind: the files written, in order, each with its content, and
the messages handed to `Logger().Error`. -/
structure Trace where
  files : List (FileName × List Nat)
  errors : List String
deriving DecidableEq, Repr

/-- The slice `bz` after `bz, err := codec.MarshalJSONIndent(...)`: nil when the encoding
failed. -/
def marshalledBytes (res : Except String (List Nat)) : List Nat :=
  match res with
  | .ok bz => bz
  | .error _ => []

/-- Lines 85-87 and 148-150: the error of the encoding is logged, and nothing else is
done about it. -/
def logMarshalError (res : Except String (List Nat)) (errors : List String) : List String :=
  match res with
  | .ok _ => errors
  | .error err => errors ++ [err]

/-- Lines 89-92 and 152-155: `ioutil.WriteFile` is called with `bz`, whatever the
encoding returned; its error is logged. -/
def writeArtifact (env : Env) (name : FileName) (bz : List Nat) (trace : Trace) : Trace :=
  match env.writeFile name bz with
  | none => { files := trace.files ++ [(name, bz)], errors := trace.errors }
  | some err => { files := trace.files, errors := trace.errors ++ [err] }

/-- The function `exportVestingSupply`. -/
def exportVestingSupply (env : Env) (vestingCoins : Coins) : Trace :=
  let res := env.marshalCoins vestingCoins
  let bz := marshalledBytes res
  let errors := logMarshalError res []
  writeArtifact env (FileName.vesting (env.now 0)) bz { files := [], errors := errors }

/-- Lines 118-156 of `exportRanking`: the loop over the denominations, from the n-th
one on, on the rankings built so far and the trace so far. Each turn copies `accs` into
`tmpAccs` and selects on the copy; `accs` itself is never written to. Here the copy is
a value; `memory.exportRankingFrom` has lines 122-123 as the allocation and the writes
they are. -/
def exportRankingFrom (env : Env) (accs : List Account) :
    Nat → List Denom → List (Denom × List ExportAccount) × Trace →
    Option (List (Denom × List ExportAccount) × Trace)
  | _, [], state => some state
  | n, denom :: rest, state =>
    let tmpAccs := accs
    match ranking tmpAccs denom with
    | none => none
    | some topRankerList =>
      let res := env.marshalRanking topRankerList
      let bz := marshalledBytes res
      let errors := logMarshalError res state.2.errors
      exportRankingFrom env accs (n + 1) rest
        (state.1 ++ [(denom, topRankerList)],
          writeArtifact env (FileName.tracking denom (env.now n)) bz
            { files := state.2.files, errors := errors })

/-- The function `exportRanking`: the rankings built, one for each denomination in turn,
and the trace. -/
def exportRanking (env : Env) (accs : List Account) (denoms : List Denom) :
    Option (List (Denom × List ExportAccount) × Trace) :=
  exportRankingFrom env accs 0 denoms ([], { files := [], errors := [] })


/-! ## The slices of `exportRanking`

The selection above takes the pool as a value. Here the same lines are embedded on the
backing arrays, with `make`, `copy` and the assignment to an element as the operations on
memory that they are, to tell what the writes of one selection reach. -/

namespace memory

/-- An element of a slice of type `[]auth.Account`: `none` is the nil interface value,
which `make` fills a new array with. `copy` and the assignment to an element move such
values; the accounts they refer to are only read by `exportRanking`. -/
abbrev Cell := Option Account

/-- A slice header: the backing array and the length. Every slice of `exportRanking`
starts at the first element of its array. -/
structure Slice where
  array : Nat
  len : Nat
deriving DecidableEq, Repr

/-- The backing arrays; the identifier of an array is its position in the list. -/
abbrev Memory := List (List Cell)

/-- The elements of a slice. -/
def elements (mem : Memory) (s : Slice) : List Cell :=
  (mem.getD s.array []).take s.len

/-- The built-in `make([]auth.Account, n)`: a new array of `n` nil elements. -/
def make (mem : Memory) (n : Nat) : Memory × Slice :=
  (mem ++ [List.replicate n none], { array := mem.length, len := n })

/-- The built-in `copy(dst, src)`: the first `min(len(dst), len(src))` elements of `dst`
are overwritten with those of `src`. -/
def copy (mem : Memory) (dst src : Slice) : Memory :=
  let n := min dst.len src.len
  mem.set dst.array ((elements mem src).take n ++ (mem.getD dst.array []).drop n)

/-- The index expression `s[i]`: panics when `i` is out of range. -/
def index (mem : Memory) (s : Slice) (i : Nat) : Option Cell :=
  if i < s.len then (mem.getD s.array [])[i]? else none

/-- The assignment `s[i] = c`: writes into the backing array of `s`; panics when `i` is
out of range. -/
def assign (mem : Memory) (s : Slice) (i : Nat) (c : Cell) : Option Memory :=
  if i < s.len then some (mem.set s.array ((mem.getD s.array []).set i c)) else none

/-- Lines 127-140 of `exportRanking` on the elements of `tmpAccs`: a method call on a nil
element panics. -/
def scanTop (denom : Denom) : List Cell → Nat → Nat × Int × AccAddress →
    Option (Nat × Int × AccAddress)
  | [], _, top => some top
  | none :: _, _, _ => none
  | some acc :: rest, idx, top =>
    let addr := acc.address
    let amt := acc.coins.AmountOf denom
    if idx = 0 ∨ top.2.1 < amt then scanTop denom rest (idx + 1) (idx, amt, addr)
    else scanTop denom rest (idx + 1) top

/-- Lines 127-144 of `exportRanking`: one round. Line 143 reads the last element of
`tmpAccs` (the index `len(tmpAccs)-1` is out of range for an empty slice) and writes it
into the array of `tmpAccs`; line 144 shortens the slice, on the same array. -/
def selectRound (denom : Denom) (mem : Memory) (tmpAccs : Slice) :
    Option (ExportAccount × Memory × Slice) :=
  match scanTop denom (elements mem tmpAccs) 0 (0, 0, "") with
  | none => none
  | some top =>
    if tmpAccs.len = 0 then none
    else
      match index mem tmpAccs (tmpAccs.len - 1) with
      | none => none
      | some last =>
        match assign mem tmpAccs top.1 last with
        | none => none
        | some mem =>
          some (NewExportAccount top.2.2 top.2.1, mem,
            { array := tmpAccs.array, len := tmpAccs.len - 1 })

/-- Lines 125-145 of `exportRanking`: the rounds still to run. -/
def selectLoop (denom : Denom) : Nat → Memory → Slice → List ExportAccount →
    Option (List ExportAccount × Memory)
  | 0, mem, _, topRankerList => some (topRankerList, mem)
  | rounds + 1, mem, tmpAccs, topRankerList =>
    match selectRound denom mem tmpAccs with
    | none => none
    | some (entry, mem, tmpAccs) =>
      selectLoop denom rounds mem tmpAccs (topRankerList ++ [entry])

/-- Lines 113-116 of `exportRanking`. -/
def maxEntries (accs : Slice) : Nat :=
  if accs.len < 1000 then accs.len else 1000

/-- Lines 118-156 of `exportRanking`: the loop over the denominations, from the n-th one
on. Lines 122-123 allocate a new array for `tmpAccs` and copy the elements of `accs`
into it. -/
def exportRankingFrom (env : Env) (accs : Slice) (maxEntries : Nat) :
    Nat → List Denom → Memory × List (Denom × List ExportAccount) × Trace →
    Option (Memory × List (Denom × List ExportAccount) × Trace)
  | _, [], state => some state
  | n, denom :: rest, state =>
    let made := make state.1 accs.len
    let tmpAccs := made.2
    let mem := copy made.1 tmpAccs accs
    match selectLoop denom maxEntries mem tmpAccs [] with
    | none => none
    | some (topRankerList, mem) =>
      let res := env.marshalRanking topRankerList
      let bz := marshalledBytes res
      let errors := logMarshalError res state.2.2.errors
      exportRankingFrom env accs maxEntries (n + 1) rest
        (mem, state.2.1 ++ [(denom, topRankerList)],
          writeArtifact env (FileName.tracking denom (env.now n)) bz
            { files := state.2.2.files, errors := errors })

/-- The function `exportRanking` on the memory: the memory it leaves, the rankings built
and the trace. -/
def exportRanking (env : Env) (mem : Memory) (accs : Slice) (denoms : List Denom) :
    Option (Memory × List (Denom × List ExportAccount) × Trace) :=
  exportRankingFrom env accs (maxEntries accs) 0 denoms (mem, [], { files := [], errors := [] })

end memory


/-! ## Scenarios -/

/-- A denomination of the scenarios. -/
def denomA : Denom := 1

/-- A second denomination of the scenarios. -/
def denomB : Denom := 2

/-- The staking denomination of the scenarios. -/
def stakingDenom : Denom := 3

/-- The account A of the scenario of the spec: liquid balance `{denomA: 5}`. -/
def scenarioAccount : Account :=
  { address := "A", coins := [⟨denomA, 5⟩], vesting := none }

/-- The scenario of the spec: validator V has 100 bonded tokens and 50 delegator
shares, account A delegates 10 shares to V and has one unbonding entry of balance 3. -/
def scenarioLedger : Ledger :=
  { blockTime := 0
    validators := [⟨"V", 100, ⟨50000000000000000000⟩⟩]
    whitelist := [denomA]
    accounts := [scenarioAccount]
    delegations := fun _ => [⟨"V", ⟨10000000000000000000⟩⟩]
    unbondingDelegations := fun _ => [⟨[⟨3⟩]⟩]
    bondDenom := stakingDenom }

/-- The scenario of the spec with every amount at the micro scale, so that account A
passes the threshold: liquid `{denomA: 5000000}`, 10000000 shares at rate 2, one
unbonding entry of balance 3000000. -/
def scenarioLedgerMicro : Ledger :=
  { blockTime := 0
    validators := [⟨"V", 100000000, ⟨50000000000000000000000000⟩⟩]
    whitelist := [denomA]
    accounts := [{ address := "A", coins := [⟨denomA, 5000000⟩], vesting := none }]
    delegations := fun _ => [⟨"V", ⟨10000000000000000000000000⟩⟩]
    unbondingDelegations := fun _ => [⟨[⟨3000000⟩]⟩]
    bondDenom := stakingDenom }

/-- A ledger with no staking, whose accounts hold the given coins in the given order. -/
def liquidLedger (whitelist : List Denom) (holdings : List (AccAddress × Coins)) : Ledger :=
  { blockTime := 0
    validators := []
    whitelist := whitelist
    accounts := holdings.map (fun h => { address := h.1, coins := h.2, vesting := none })
    delegations := fun _ => []
    unbondingDelegations := fun _ => []
    bondDenom := stakingDenom }

/-- A ledger whose only validator has zero delegator shares. -/
def zeroSharesLedger : Ledger :=
  { blockTime := 0
    validators := [⟨"V", 0, ⟨0⟩⟩]
    whitelist := [denomA]
    accounts := [{ address := "A", coins := [⟨denomA, 5000000⟩], vesting := none }]
    delegations := fun _ => []
    unbondingDelegations := fun _ => []
    bondDenom := stakingDenom }

/-- A ledger with an account that delegates to a validator the map has no entry for. -/
def missingRateLedger : Ledger :=
  { blockTime := 0
    validators := []
    whitelist := [denomA]
    accounts := [{ address := "A", coins := [⟨denomA, 5000000⟩], vesting := none }]
    delegations := fun _ => [⟨"V", ⟨10000000000000000000⟩⟩]
    unbondingDelegations := fun _ => []
    bondDenom := stakingDenom }

/-- A ledger with two vesting accounts, vesting `{denomA: 10}` and `{denomA: 5, denomB: 2}`,
and an account without a vesting schedule. -/
def vestingLedger : Ledger :=
  { blockTime := 0
    validators := []
    whitelist := [denomA]
    accounts :=
      [{ address := "A", coins := [⟨denomA, 50⟩], vesting := some (fun _ => [⟨denomA, 10⟩]) },
       { address := "B", coins := [⟨denomB, 7⟩], vesting := none },
       { address := "C", coins := [], vesting := some (fun _ => [⟨denomA, 5⟩, ⟨denomB, 2⟩]) }]
    delegations := fun _ => []
    unbondingDelegations := fun _ => []
    bondDenom := stakingDenom }

/-- Three accounts A, B, C holding 9, 5 and 5 of `denomA`, in that order. -/
def tieAccounts : List Account :=
  [⟨"A", [⟨denomA, 9⟩], none⟩, ⟨"B", [⟨denomA, 5⟩], none⟩, ⟨"C", [⟨denomA, 5⟩], none⟩]

/-- Four candidates a, b, c, d holding 5, 5, 9 and 1 of `denomA`, in that order. -/
def fourCandidates : List Account :=
  [⟨"a", [⟨denomA, 5⟩], none⟩, ⟨"b", [⟨denomA, 5⟩], none⟩, ⟨"c", [⟨denomA, 9⟩], none⟩,
    ⟨"d", [⟨denomA, 1⟩], none⟩]

/-- Two accounts: A holds 9 of `denomA`, B holds 5 of `denomA` and 7 of `denomB`. -/
def twoAccounts : List Account :=
  [⟨"A", [⟨denomA, 9⟩], none⟩, ⟨"B", [⟨denomA, 5⟩, ⟨denomB, 7⟩], none⟩]

/-- An environment in which every file can be written, the encoding of a ranking fails
when account A is at its top and gives the amounts otherwise, and the encoding of the
vesting total always fails. -/
def failingEnv : Env :=
  { marshalCoins := fun _ => .error "cannot encode the vesting total"
    marshalRanking := fun ranking =>
      match ranking with
      | ⟨"A", _⟩ :: _ => .error "cannot encode the ranking"
      | _ => .ok (ranking.map (fun entry => entry.amount.toNat))
    writeFile := fun _ _ => none
    now := fun _ => "2020-01-01T00:00:00Z" }

/-- A ledger with no staking and three accounts: A holds 2000000 of `denomA` and vests
`{denomA: 10}`, B holds 3000000 of `denomA`, C holds 5 of `denomA` and vests
`{denomA: 5, denomB: 2}`. -/
def orderLedger : Ledger :=
  { blockTime := 0
    validators := []
    whitelist := [denomA]
    accounts :=
      [{ address := "A", coins := [⟨denomA, 2000000⟩],
         vesting := some (fun _ => [⟨denomA, 10⟩]) },
       { address := "B", coins := [⟨denomA, 3000000⟩], vesting := none },
       { address := "C", coins := [⟨denomA, 5⟩],
         vesting := some (fun _ => [⟨denomA, 5⟩, ⟨denomB, 2⟩]) }]
    delegations := fun _ => []
    unbondingDelegations := fun _ => []
    bondDenom := stakingDenom }

end app

namespace sdk

/-- The constructor `NewDec`: the decimal of an integer. -/
def NewDec (i : Int) : Dec :=
  ⟨i * precisionReuse⟩

/-- The constructor `NewDecWithPrec`: the decimal `i / 10^prec`. It panics when `prec`
exceeds 18, which no call in the sources does. -/
def NewDecWithPrec (i : Int) (prec : Nat) : Dec :=
  ⟨i * 10 ^ (Precision - prec)⟩

/-- The method `Dec.Add`. Its range check (315 bits) is outside the model: the generators
add decimals of fewer than 100 bits. -/
def Dec.Add (d d2 : Dec) : Dec :=
  ⟨d.int + d2.int⟩

end sdk

namespace simulation

open sdk

/-- A random source `*rand.Rand` as the generators use it: each of them draws one
number, and `Intn(n)` is below `n` for a positive `n`. -/
structure Rand where
  /-- The result of the next call of `r.Intn(n)`. -/
  Intn : Nat → Nat
  /-- The contract of `Intn`: the result lies in `[0, n)`. -/
  Intn_lt : ∀ n, 0 < n → Intn n < n

/-- The function `GenBasePool`. -/
def GenBasePool (r : Rand) : Dec :=
  (NewDec 100000000).Add (NewDec (r.Intn 10000000000))

/-- The function `GenPoolRecoveryPeriod`. -/
def GenPoolRecoveryPeriod (r : Rand) : Int :=
  100 + r.Intn 10000000000

/-- The function `GenMinSpread`. -/
def GenMinSpread (r : Rand) : Dec :=
  (NewDecWithPrec 1 2).Add (NewDecWithPrec (r.Intn 100) 3)

/-- The function `GenTobinTax`. -/
def GenTobinTax (r : Rand) : Dec :=
  (NewDecWithPrec 1 3).Add (NewDecWithPrec (r.Intn 100) 3)

/-- The function `GenIlliquidTobinTaxRate`. -/
def GenIlliquidTobinTaxRate (r : Rand) : Dec :=
  (NewDecWithPrec 1 2).Add (NewDecWithPrec (r.Intn 100) 3)

end simulation

namespace wasm

/-- A byte slice. -/
abbrev Bytes := List Nat

/-- The query parameters built by `types.NewQueryCodeIDParams`,
`NewQueryContractAddressParams`, `NewQueryContractParams` and `NewQueryRawStoreParams`. -/
inductive QueryParams where
  | codeID (codeID : Nat)
  | contractAddress (addr : String)
  | contract (addr : String) (msg : Bytes)
  | rawStore (addr : String) (key : Bytes)
deriving DecidableEq, Repr

/-- The routes `custom/<QuerierRoute>/<query>` of the four handlers, named after the
constants `QueryGetCodeInfo`, `QueryGetContractInfo`, `QueryContractStore` and
`QueryRawStore`. -/
inductive Route where
  | getCodeInfo
  | getContractInfo
  | contractStore
  | rawStore
deriving DecidableEq, Repr

/-- What a handler hands to `rest.PostProcessResponse`: `res`, `string(res)` or a
`types.Model`. -/
inductive Payload where
  | bytes (res : Bytes)
  | text (res : Bytes)
  | model (key value : Bytes)
deriving DecidableEq, Repr

/-- What a handler does that can be seen from outside, in order. -/
inductive Event where
  /-- The response written by `rest.ParseQueryHeightOrReturnBadRequest`. -/
  | badRequest
  /-- The call `rest.WriteErrorResponse(w, http.StatusInternalServerError, msg)`. -/
  | errorResponse (msg : String)
  /-- The call `cliCtx.QueryWithData(route, bz)`. -/
  | queryNode (route : Route) (bz : Bytes)
  /-- The call `rest.PostProcessResponse(w, cliCtx.WithHeight(height), payload)`. -/
  | postProcess (height : Int) (payload : Payload)
deriving DecidableEq, Repr

/-- The results `res, height, err` of `cliCtx.QueryWithData`. -/
structure QueryResult where
  res : Bytes
  height : Int
  err : Option String
deriving DecidableEq, Repr

/-- What the handlers call: the context `cliCtx` and the libraries. -/
structure Client where
  /-- The call `strconv.ParseUint(s, 10, 64)`. -/
  parseUint : String → Except String Nat
  /-- The call `sdk.AccAddressFromBech32`. -/
  accAddressFromBech32 : String → Except String String
  /-- The call `cliCtx.Codec.MarshalJSON(params)`: the bytes or the error. -/
  marshalJSON : QueryParams → Except String Bytes
  /-- The call `cliCtx.QueryWithData(route, bz)`. -/
  queryWithData : Route → Bytes → QueryResult
  /-- The function `utils.EncodeKey` of this repository, declared outside the given
  sources. -/
  encodeKey : Bytes → Bytes

/-- A request as the handlers read it. -/
structure Request where
  /-- Whether `rest.ParseQueryHeightOrReturnBadRequest` accepts the request. -/
  heightOk : Bool
  /-- The path variable: `vars[RestCodeID]` or `vars[RestContractAddress]`. -/
  pathVar : String
  /-- The bytes of `r.URL.Query().Get("query_msg")`. -/
  queryMsg : Bytes
  /-- The bytes of `r.URL.Query().Get("key")`. -/
  key : Bytes
  /-- The bytes of `r.URL.Query().Get("subkey")`. -/
  subkey : Bytes

/-- The slice `bz` after `bz, err := cliCtx.Codec.MarshalJSON(params)`: nil when the
encoding failed. -/
def marshalledBytes (res : Except String Bytes) : Bytes :=
  match res with
  | .ok bz => bz
  | .error _ => []

/-- The handler `queryCodeInfoHandlerFn`. The two error branches after `MarshalJSON`
and after `QueryWithData` write the error response and do not return. -/
def queryCodeInfoHandlerFn (cli : Client) (r : Request) : List Event :=
  if !r.heightOk then [Event.badRequest]
  else
    match cli.parseUint r.pathVar with
    | .error err => [Event.errorResponse err]
    | .ok codeID =>
      let marshalled := cli.marshalJSON (QueryParams.codeID codeID)
      let bz := marshalledBytes marshalled
      let afterMarshal : List Event :=
        match marshalled with
        | .error err => [Event.errorResponse err]
        | .ok _ => []
      let result := cli.queryWithData Route.getCodeInfo bz
      let afterQuery : List Event :=
        match result.err with
        | some err => [Event.errorResponse err]
        | none => []
      afterMarshal ++ [Event.queryNode Route.getCodeInfo bz] ++ afterQuery ++
        [Event.postProcess result.height (Payload.bytes result.res)]

/-- Lines 74-89, 110-125 and 148-168: what the three contract handlers do once the
address is parsed; every error branch writes the error response and returns. -/
def queryAndRespond (cli : Client) (route : Route) (params : QueryParams)
    (payload : Bytes → Payload) : List Event :=
  match cli.marshalJSON params with
  | .error err => [Event.errorResponse err]
  | .ok bz =>
    let result := cli.queryWithData route bz
    match result.err with
    | some err => [Event.queryNode route bz, Event.errorResponse err]
    | none => [Event.queryNode route bz, Event.postProcess result.height (payload result.res)]

/-- The handler `queryContractInfoHandlerFn`. -/
def queryContractInfoHandlerFn (cli : Client) (r : Request) : List Event :=
  if !r.heightOk then [Event.badRequest]
  else
    match cli.accAddressFromBech32 r.pathVar with
    | .error err => [Event.errorResponse err]
    | .ok addr =>
      queryAndRespond cli Route.getContractInfo (QueryParams.contractAddress addr) Payload.text

/-- The handler `queryContractStoreHandlerFn`. -/
def queryContractStoreHandlerFn (cli : Client) (r : Request) : List Event :=
  if !r.heightOk then [Event.badRequest]
  else
    match cli.accAddressFromBech32 r.pathVar with
    | .error err => [Event.errorResponse err]
    | .ok addr =>
      queryAndRespond cli Route.contractStore (QueryParams.contract addr r.queryMsg)
        Payload.text

/-- The handler `queryRawStoreHandlerFn`. -/
def queryRawStoreHandlerFn (cli : Client) (r : Request) : List Event :=
  if !r.heightOk then [Event.badRequest]
  else
    match cli.accAddressFromBech32 r.pathVar with
    | .error err => [Event.errorResponse err]
    | .ok addr =>
      let keyBz := cli.encodeKey r.key ++ r.subkey
      queryAndRespond cli Route.rawStore (QueryParams.rawStore addr keyBz)
        (fun res => Payload.model keyBz res)

/-- The number of error responses written. -/
def errorResponses (events : List Event) : Nat :=
  (events.filter (fun e => match e with | Event.errorResponse _ => true | _ => false)).length

/-- The number of queries sent to the node. -/
def nodeQueries (events : List Event) : Nat :=
  (events.filter (fun e => match e with | Event.queryNode _ _ => true | _ => false)).length

/-- The number of calls of `rest.PostProcessResponse`. -/
def successResponses (events : List Event) : Nat :=
  (events.filter (fun e => match e with | Event.postProcess _ _ => true | _ => false)).length

/-- A request for the code of id 7. -/
def codeRequest : Request :=
  { heightOk := true, pathVar := "7", queryMsg := [], key := [], subkey := [] }

/-- A client whose node has no code of the id asked for: the parameters are encoded and
the node query fails. -/
def queryFailingClient : Client :=
  { parseUint := fun _ => .ok 7
    accAddressFromBech32 := fun s => .ok s
    marshalJSON := fun _ => .ok [1]
    queryWithData := fun _ _ => { res := [], height := 0, err := some "unknown code" }
    encodeKey := fun key => key }

/-- A client whose codec fails; its node answers every query. -/
def marshalFailingClient : Client :=
  { parseUint := fun _ => .ok 7
    accAddressFromBech32 := fun s => .ok s
    marshalJSON := fun _ => .error "cannot encode"
    queryWithData := fun _ _ => { res := [2], height := 5, err := none }
    encodeKey := fun key => key }

end wasm

/-! # Theorems -/

namespace sdk

/-! ## Coin sets -/

theorem safeAdd_nil_left (b : Coins) : Coins.safeAdd [] b = removeZeroCoins b := rfl

theorem safeAdd_nil_right (a : Coins) : Coins.safeAdd a [] = removeZeroCoins a := by
  cases a <;> rfl

theorem safeAdd_cons_cons (x y : Coin) (as bs : Coins) :
    Coins.safeAdd (x :: as) (y :: bs) =
      if x.denom < y.denom then
        (if x.amount ≠ 0 then [x] else []) ++ Coins.safeAdd as (y :: bs)
      else if x.denom = y.denom then
        (if x.amount + y.amount ≠ 0 then [⟨x.denom, x.amount + y.amount⟩] else []) ++
          Coins.safeAdd as bs
      else (if y.amount ≠ 0 then [y] else []) ++ Coins.safeAdd (x :: as) bs := rfl

theorem mem_removeZeroCoins {c : Coin} {l : Coins} :
    c ∈ removeZeroCoins l ↔ c ∈ l ∧ c.amount ≠ 0 := by
  simp [removeZeroCoins]

/-- Every coin of a sum has the denomination of a coin of one of the two sets. -/
theorem denom_mem_of_mem_safeAdd (a : Coins) :
    ∀ (b : Coins) (c : Coin), c ∈ Coins.safeAdd a b →
      c.denom ∈ a.map Coin.denom ∨ c.denom ∈ b.map Coin.denom := by
  induction a with
  | nil =>
    intro b c h
    rw [safeAdd_nil_left, mem_removeZeroCoins] at h
    exact Or.inr (List.mem_map_of_mem _ h.1)
  | cons x as iha =>
    intro b
    induction b with
    | nil =>
      intro c h
      rw [safeAdd_nil_right, mem_removeZeroCoins] at h
      exact Or.inl (List.mem_map_of_mem _ h.1)
    | cons y bs ihb =>
      intro c h
      rw [safeAdd_cons_cons] at h
      split_ifs at h
      all_goals simp only [List.mem_append, List.mem_singleton, List.not_mem_nil, false_or,
        List.nil_append, List.singleton_append, List.mem_cons] at h
      all_goals simp only [List.map_cons, List.mem_cons]
      · rcases h with h | h
        · exact Or.inl (Or.inl (by rw [h]))
        · rcases iha _ c h with h | h
          · exact Or.inl (Or.inr h)
          · exact Or.inr (by simpa using h)
      · rcases iha _ c h with h | h
        · exact Or.inl (Or.inr h)
        · exact Or.inr (by simpa using h)
      · rcases h with h | h
        · exact Or.inl (Or.inl (by rw [h]))
        · rcases iha _ c h with h | h
          · exact Or.inl (Or.inr h)
          · exact Or.inr (Or.inr h)
      · rcases iha _ c h with h | h
        · exact Or.inl (Or.inr h)
        · exact Or.inr (Or.inr h)
      · rcases h with h | h
        · exact Or.inr (Or.inl (by rw [h]))
        · rcases ihb c h with h | h
          · exact Or.inl (by simpa using h)
          · exact Or.inr (Or.inr h)
      · rcases ihb c h with h | h
        · exact Or.inl (by simpa using h)
        · exact Or.inr (Or.inr h)

/-- Denominations strictly increasing along the set. -/
theorem sorted_removeZeroCoins {l : Coins}
    (h : (l.map Coin.denom).Sorted (fun a b => a < b)) :
    ((removeZeroCoins l).map Coin.denom).Sorted (fun a b => a < b) := by
  unfold removeZeroCoins
  exact List.Pairwise.sublist (List.Sublist.map _ (List.filter_sublist l)) h

theorem sorted_cons_of_forall {x : Coin} {l : Coins}
    (hl : (l.map Coin.denom).Sorted (fun a b => a < b))
    (hx : ∀ c ∈ l, x.denom < c.denom) :
    (((if x.amount ≠ 0 then [x] else []) ++ l).map Coin.denom).Sorted (fun a b => a < b) := by
  split_ifs
  · simp only [List.singleton_append, List.map_cons, List.sorted_cons]
    refine ⟨?_, hl⟩
    intro b hb
    obtain ⟨c, hc, rfl⟩ := List.mem_map.1 hb
    exact hx c hc
  · simpa using hl

/-- The sum of two sorted sets is sorted. -/
theorem sorted_safeAdd (a : Coins) :
    ∀ (b : Coins), (a.map Coin.denom).Sorted (fun a b => a < b) →
      (b.map Coin.denom).Sorted (fun a b => a < b) →
      ((Coins.safeAdd a b).map Coin.denom).Sorted (fun a b => a < b) := by
  induction a with
  | nil =>
    intro b _ hb
    rw [safeAdd_nil_left]
    exact sorted_removeZeroCoins hb
  | cons x as iha =>
    intro b
    induction b with
    | nil =>
      intro ha _
      rw [safeAdd_nil_right]
      exact sorted_removeZeroCoins ha
    | cons y bs ihb =>
      intro ha hb
      have ha2 := ha
      have hb2 := hb
      simp only [List.map_cons, List.sorted_cons] at ha2 hb2
      rw [safeAdd_cons_cons]
      by_cases h1 : x.denom < y.denom
      · rw [if_pos h1]
        apply sorted_cons_of_forall (iha _ ha2.2 hb)
        intro c hc
        rcases denom_mem_of_mem_safeAdd _ _ c hc with h | h
        · exact ha2.1 _ h
        · simp only [List.map_cons, List.mem_cons] at h
          rcases h with h | h
          · rw [h]; exact h1
          · exact lt_trans h1 (hb2.1 _ h)
      · rw [if_neg h1]
        by_cases h2 : x.denom = y.denom
        · rw [if_pos h2]
          have := sorted_cons_of_forall (x := ⟨x.denom, x.amount + y.amount⟩)
            (iha _ ha2.2 hb2.2) (by
              intro c hc
              rcases denom_mem_of_mem_safeAdd _ _ c hc with h | h
              · exact ha2.1 _ h
              · show x.denom < c.denom
                rw [h2]; exact hb2.1 _ h)
          exact this
        · rw [if_neg h2]
          have h3 : y.denom < x.denom := lt_of_le_of_ne (not_lt.1 h1) (Ne.symm h2)
          apply sorted_cons_of_forall (ihb ha hb2.2)
          intro c hc
          rcases denom_mem_of_mem_safeAdd _ _ c hc with h | h
          · simp only [List.map_cons, List.mem_cons] at h
            rcases h with h | h
            · rw [h]; exact h3
            · exact lt_trans h3 (ha2.1 _ h)
          · exact hb2.1 _ h

theorem AmountOf_eq_zero_of_not_mem {l : Coins} {d : Denom}
    (h : d ∉ l.map Coin.denom) : Coins.AmountOf l d = 0 := by
  induction l with
  | nil => rfl
  | cons x xs ih =>
    simp only [List.map_cons, List.mem_cons, not_or] at h
    simp only [Coins.AmountOf]
    rw [if_neg (fun e => h.1 e.symm)]
    exact ih h.2

theorem AmountOf_cons (x : Coin) (l : Coins) (d : Denom) :
    Coins.AmountOf (x :: l) d = if x.denom = d then x.amount else Coins.AmountOf l d := rfl

theorem AmountOf_opt_cons (x : Coin) (l : Coins) (d : Denom) :
    Coins.AmountOf ((if x.amount ≠ 0 then [x] else []) ++ l) d =
      if x.denom = d then (if x.amount ≠ 0 then x.amount else Coins.AmountOf l d)
      else Coins.AmountOf l d := by
  by_cases h : x.amount ≠ 0
  · simp only [h, if_true, List.singleton_append, AmountOf_cons, ne_eq, not_false_eq_true]
  · simp only [h, if_false, List.nil_append, ite_self]

theorem AmountOf_removeZeroCoins {l : Coins} (d : Denom)
    (h : (l.map Coin.denom).Sorted (fun a b => a < b)) :
    Coins.AmountOf (removeZeroCoins l) d = Coins.AmountOf l d := by
  induction l with
  | nil => rfl
  | cons x xs ih =>
    simp only [List.map_cons, List.sorted_cons] at h
    have e : removeZeroCoins (x :: xs) = (if x.amount ≠ 0 then [x] else []) ++ removeZeroCoins xs := by
      unfold removeZeroCoins
      by_cases hx : x.amount = 0 <;> simp [List.filter_cons, hx]
    rw [e, AmountOf_opt_cons, AmountOf_cons, ih h.2]
    by_cases hd : x.denom = d
    · simp only [hd, if_true]
      by_cases hx : x.amount = 0
      · simp only [hx, ne_eq, not_true_eq_false, if_false]
        apply AmountOf_eq_zero_of_not_mem
        intro hm
        exact absurd (h.1 _ hm) (by rw [hd]; exact lt_irrefl _)
      · simp only [ne_eq, hx, not_false_eq_true, if_true]
    · simp only [hd, if_false]

/-- The amount a sum holds in a denomination is the sum of the amounts. -/
theorem AmountOf_safeAdd (d : Denom) (a : Coins) :
    ∀ (b : Coins), (a.map Coin.denom).Sorted (fun a b => a < b) →
      (b.map Coin.denom).Sorted (fun a b => a < b) →
      Coins.AmountOf (Coins.safeAdd a b) d = Coins.AmountOf a d + Coins.AmountOf b d := by
  induction a with
  | nil =>
    intro b _ hb
    rw [safeAdd_nil_left, AmountOf_removeZeroCoins d hb]
    simp [Coins.AmountOf]
  | cons x as iha =>
    intro b
    induction b with
    | nil =>
      intro ha _
      rw [safeAdd_nil_right, AmountOf_removeZeroCoins d ha]
      simp [Coins.AmountOf]
    | cons y bs ihb =>
      intro ha hb
      have ha2 := ha
      have hb2 := hb
      simp only [List.map_cons, List.sorted_cons] at ha2 hb2
      have hxa : ∀ e, e ≤ x.denom → Coins.AmountOf as e = 0 := fun e he =>
        AmountOf_eq_zero_of_not_mem (fun hm => absurd (ha2.1 _ hm) (not_lt.2 he))
      have hyb : ∀ e, e ≤ y.denom → Coins.AmountOf bs e = 0 := fun e he =>
        AmountOf_eq_zero_of_not_mem (fun hm => absurd (hb2.1 _ hm) (not_lt.2 he))
      rw [safeAdd_cons_cons]
      by_cases h1 : x.denom < y.denom
      · rw [if_pos h1, AmountOf_opt_cons, iha _ ha2.2 hb]
        simp only [AmountOf_cons]
        by_cases hd : x.denom = d
        · subst hd
          have hyd : ¬ y.denom = x.denom := fun e => absurd h1 (by rw [e]; exact lt_irrefl _)
          simp only [if_true, hyd, if_false, hxa _ le_rfl, hyb _ (le_of_lt h1)]
          by_cases hx : x.amount = 0 <;> simp [hx]
        · simp only [hd, if_false]
      · rw [if_neg h1]
        by_cases h2 : x.denom = y.denom
        · rw [if_pos h2]
          have := AmountOf_opt_cons ⟨x.denom, x.amount + y.amount⟩ (Coins.safeAdd as bs) d
          simp only at this
          rw [this, iha _ ha2.2 hb2.2]
          simp only [AmountOf_cons]
          by_cases hd : x.denom = d
          · have hyd : y.denom = d := by rw [← h2]; exact hd
            simp only [hd, hyd, if_true]
            subst hd
            rw [hxa _ le_rfl, hyb _ (le_of_eq h2)]
            by_cases hs : x.amount + y.amount = 0 <;> simp [hs]
          · have hyd : ¬ y.denom = d := by rw [← h2]; exact hd
            simp only [hd, hyd, if_false]
        · rw [if_neg h2]
          have h3 : y.denom < x.denom := lt_of_le_of_ne (not_lt.1 h1) (Ne.symm h2)
          rw [AmountOf_opt_cons, ihb ha hb2.2]
          simp only [AmountOf_cons]
          by_cases hd : y.denom = d
          · subst hd
            simp only [if_true, h2, if_false, hxa _ (le_of_lt h3), hyb _ le_rfl]
            by_cases hy : y.amount = 0 <;> simp [hy]
          · simp only [hd, if_false]

end sdk

namespace sdk

/-! ## Fixed-point arithmetic -/

theorem chopPrecisionAndRound_bounds (d : Int) (h : 0 ≤ d) :
    d - fivePrecision ≤ chopPrecisionAndRound d * precisionReuse ∧
      chopPrecisionAndRound d * precisionReuse ≤ d + fivePrecision := by
  unfold chopPrecisionAndRound chopPrecisionAndRoundNonneg
  rw [if_neg (not_lt.2 h)]
  simp only [fivePrecision, precisionReuse]
  rw [Int.tdiv_eq_ediv h (by decide), Int.tmod_eq_emod h (by decide)]
  split_ifs <;> omega

theorem chopPrecisionAndRound_nonneg (d : Int) (h : 0 ≤ d) : 0 ≤ chopPrecisionAndRound d := by
  have := chopPrecisionAndRound_bounds d h
  simp only [fivePrecision, precisionReuse] at this
  omega

/-- Truncating the rounded product gives the floor of the product or one more. -/
theorem truncate_round_bounds (p : Int) (h : 0 ≤ p) :
    p / 1000000000000000000000000000000000000 ≤
        chopPrecisionAndTruncate (chopPrecisionAndRound p) ∧
      chopPrecisionAndTruncate (chopPrecisionAndRound p) ≤
        p / 1000000000000000000000000000000000000 + 1 ∧
      0 ≤ chopPrecisionAndTruncate (chopPrecisionAndRound p) := by
  have hb := chopPrecisionAndRound_bounds p h
  have hn := chopPrecisionAndRound_nonneg p h
  unfold chopPrecisionAndTruncate
  rw [Int.tdiv_eq_ediv hn (by decide)]
  simp only [fivePrecision, precisionReuse] at hb ⊢
  omega

/-- The bound of `Dec.Mul` and `Dec.Quo`, written out. -/
theorem decRange_eq : (2 : Nat) ^ 255 * 2 ^ DecimalPrecisionBits =
    66749594872528440074844428317798503581334516323645399060845050244444366430645017188217565216768 := by
  decide

/-- The bound of `NewIntFromBigInt`, written out. -/
theorem intRange_eq : (2 : Nat) ^ maxBitLen =
    57896044618658097711785492504343953926634992332820282019728792003956564819968 := by
  decide

/-- What `Mul` returns, when it returns. -/
theorem Mul_eq_some {d d2 product : Dec} (h : d.Mul d2 = some product) :
    product.int = chopPrecisionAndRound (d.int * d2.int) := by
  unfold Dec.Mul at h
  simp only at h
  split_ifs at h
  simp only [Option.some.injEq] at h
  rw [← h]

/-- What `TruncateInt` returns, when it returns. -/
theorem TruncateInt_eq_some {d : Dec} {amt : Int} (h : d.TruncateInt = some amt) :
    amt = chopPrecisionAndTruncate d.int := by
  unfold Dec.TruncateInt NewIntFromBigInt at h
  split_ifs at h
  simp only [Option.some.injEq] at h
  rw [← h]

/-- The quotient stored for a validator is within one unit of the last digit of the
exact quotient. -/
theorem Quo_bounds (b : Int) (ds rate : Dec) (hb : 0 ≤ b) (hds : 0 < ds.int)
    (h : (NewDecFromInt b).Quo ds = some rate) :
    0 ≤ rate.int ∧
      (rate.int - 1) * ds.int < b * 1000000000000000000000000000000000000 ∧
      b * 1000000000000000000000000000000000000 < (rate.int + 1) * ds.int := by
  unfold Dec.Quo NewDecFromInt at h
  rw [if_neg (ne_of_gt hds)] at h
  simp only at h
  split_ifs at h
  simp only [Option.some.injEq] at h
  have hN : 0 ≤ b * precisionReuse * precisionReuse * precisionReuse := by
    unfold precisionReuse; positivity
  rw [Int.tdiv_eq_ediv hN (le_of_lt hds)] at h
  set x := b * precisionReuse * precisionReuse * precisionReuse / ds.int with hx
  have hx0 : 0 ≤ x := Int.ediv_nonneg hN (le_of_lt hds)
  have h1 : x * ds.int ≤ b * precisionReuse * precisionReuse * precisionReuse :=
    Int.ediv_mul_le _ (ne_of_gt hds)
  have h2 : b * precisionReuse * precisionReuse * precisionReuse < (x + 1) * ds.int :=
    Int.lt_ediv_add_one_mul_self _ hds
  have hr := chopPrecisionAndRound_bounds x hx0
  have hr0 := chopPrecisionAndRound_nonneg x hx0
  have hrate : rate.int = chopPrecisionAndRound x := by rw [← h]
  rw [← hrate] at hr hr0
  have h3 := Int.mul_le_mul_of_nonneg_right hr.1 (le_of_lt hds)
  have h4 := Int.mul_le_mul_of_nonneg_right hr.2 (le_of_lt hds)
  simp only [fivePrecision, precisionReuse] at h1 h2 h3 h4
  refine ⟨hr0, ?_, ?_⟩
  · nlinarith
  · nlinarith

/-- The quotient of a validator with fewer than `2^100` bonded tokens and positive
delegator shares is in range: `Quo` returns it. -/
theorem Quo_returns (b : Int) (ds : Dec) (hb : 0 ≤ b) (hb2 : b < 2 ^ 100) (hds : 0 < ds.int) :
    ∃ rate, (NewDecFromInt b).Quo ds = some rate ∧
      rate.int ≤ 1267650600228229401496703205376000000000000000000000000000000000000 := by
  have hp : (0 : Int) ≤ precisionReuse := by decide
  have hN : 0 ≤ b * precisionReuse * precisionReuse * precisionReuse :=
    mul_nonneg (mul_nonneg (mul_nonneg hb hp) hp) hp
  have hq : Int.tdiv ((NewDecFromInt b).int * precisionReuse * precisionReuse) ds.int =
      b * precisionReuse * precisionReuse * precisionReuse / ds.int :=
    Int.tdiv_eq_ediv hN (le_of_lt hds)
  have hx0 : 0 ≤ b * precisionReuse * precisionReuse * precisionReuse / ds.int :=
    Int.ediv_nonneg hN (le_of_lt hds)
  have hle : b * precisionReuse * precisionReuse * precisionReuse / ds.int ≤
      b * precisionReuse * precisionReuse * precisionReuse :=
    Int.ediv_le_self _ hN
  have hr := chopPrecisionAndRound_bounds _ hx0
  have hr0 := chopPrecisionAndRound_nonneg _ hx0
  unfold Dec.Quo
  rw [if_neg (ne_of_gt hds)]
  simp only [decRange_eq, hq]
  generalize b * precisionReuse * precisionReuse * precisionReuse / ds.int = x at *
  generalize chopPrecisionAndRound x = r at *
  norm_num at hb2
  have hN2 : b * precisionReuse * precisionReuse * precisionReuse =
      b * 1000000000000000000000000000000000000000000000000000000 := by
    unfold precisionReuse
    ring
  rw [hN2] at hle
  simp only [fivePrecision, precisionReuse] at hr
  rw [if_neg (by omega)]
  exact ⟨_, rfl, by simp only; omega⟩

/-- The product of non-negative shares below `2^150` and a non-negative rate of at most
`2^100` is in range, and so is its truncation: `Mul` and `TruncateInt` return. -/
theorem Mul_TruncateInt_returns (shares rate : Dec) (hs : 0 ≤ shares.int)
    (hs2 : shares.int < 2 ^ 150) (hr : 0 ≤ rate.int)
    (hr2 : rate.int ≤ 1267650600228229401496703205376000000000000000000000000000000000000) :
    ∃ product amt, shares.Mul rate = some product ∧ product.TruncateInt = some amt ∧
      0 ≤ amt := by
  have h0 : 0 ≤ shares.int * rate.int := mul_nonneg hs hr
  norm_num at hs2
  have hp : shares.int * rate.int ≤ 1427247692705959881058285969449495136382746624 *
      1267650600228229401496703205376000000000000000000000000000000000000 :=
    mul_le_mul (le_of_lt hs2) hr2 hr (by norm_num)
  have hb := chopPrecisionAndRound_bounds _ h0
  have hn := chopPrecisionAndRound_nonneg _ h0
  have ht := truncate_round_bounds _ h0
  norm_num at hp
  simp only [fivePrecision, precisionReuse] at hb
  have hmul : shares.Mul rate = some ⟨chopPrecisionAndRound (shares.int * rate.int)⟩ := by
    unfold Dec.Mul
    simp only [decRange_eq]
    rw [if_neg (by omega)]
  refine ⟨_, _, hmul, ?_, ht.2.2⟩
  unfold Dec.TruncateInt NewIntFromBigInt
  simp only [intRange_eq]
  rw [if_neg (by omega)]

end sdk

namespace sdk

theorem exists_mem_of_AmountOf_ne_zero {l : Coins} {d : Denom} (h : Coins.AmountOf l d ≠ 0) :
    ∃ c ∈ l, c.denom = d ∧ c.amount = Coins.AmountOf l d := by
  induction l with
  | nil => exact absurd rfl h
  | cons x xs ih =>
    rw [AmountOf_cons] at h ⊢
    by_cases e : x.denom = d
    · rw [if_pos e]
      exact ⟨x, List.mem_cons_self _ _, e, rfl⟩
    · rw [if_neg e] at h ⊢
      obtain ⟨c, hc, h1, h2⟩ := ih h
      exact ⟨c, List.mem_cons_of_mem _ hc, h1, h2⟩

/-- In a set whose coins all hold the floor of their denomination, the amount of a
denomination is its floor when the set has a coin of it, zero otherwise. -/
theorem AmountOf_of_forall {l : Coins} {f : Denom → Int} (h : ∀ c ∈ l, c.amount = f c.denom)
    (d : Denom) : Coins.AmountOf l d = if d ∈ l.map Coin.denom then f d else 0 := by
  induction l with
  | nil => simp [Coins.AmountOf]
  | cons x xs ih =>
    rw [AmountOf_cons]
    by_cases e : x.denom = d
    · rw [if_pos e, if_pos (by simp [e]), h x (List.mem_cons_self _ _), e]
    · rw [if_neg e, ih (fun c hc => h c (List.mem_cons_of_mem _ hc))]
      have : (d ∈ List.map Coin.denom (x :: xs)) ↔ d ∈ List.map Coin.denom xs := by
        simp only [List.map_cons, List.mem_cons]
        constructor
        · rintro (h | h)
          · exact absurd h.symm e
          · exact h
        · exact Or.inr
      simp only [this]

theorem mem_Sort {c : Coin} {l : Coins} : c ∈ Coins.Sort l ↔ c ∈ l :=
  (List.perm_insertionSort _ l).mem_iff

end sdk

namespace app

open sdk

/-! ## The aggregation pass -/

theorem unbondingAmt_eq_zero (us : List UnbondingDelegation) : unbondingAmt us = 0 := by
  unfold unbondingAmt
  induction us with
  | nil => rfl
  | cons u us ih =>
    rw [List.foldl_cons]
    exact ih

theorem lookup_cons_eq (k a : ValAddress) (b : Dec) (es : List (ValAddress × Dec)) :
    List.lookup k ((a, b) :: es) = if k = a then some b else List.lookup k es := by
  rw [List.lookup_cons]
  by_cases h : k = a
  · have hb : (k == a) = true := by simp [h]
    rw [hb, if_pos h]
  · have hb : (k == a) = false := by simp [h]
    rw [hb, if_neg h]

theorem tokenShareRatesFrom_cons (init : List (ValAddress × Dec)) (v : Validator)
    (vs : List Validator) (rate : Dec)
    (h : (NewDecFromInt v.bondedTokens).Quo v.delegatorShares = some rate) :
    tokenShareRatesFrom init (v :: vs) = tokenShareRatesFrom ((v.operator, rate) :: init) vs := by
  simp only [tokenShareRatesFrom, h]

/-- The loop over the validators succeeds when `Quo` returns for every validator; the
entries of the map are then the entries it had and one for each validator. -/
theorem tokenShareRatesFrom_spec (vs : List Validator) :
    ∀ init : List (ValAddress × Dec),
      (∀ v ∈ vs, ∃ rate, (NewDecFromInt v.bondedTokens).Quo v.delegatorShares = some rate) →
      ∃ rates, tokenShareRatesFrom init vs = some rates ∧
        (∀ op rate, rates.lookup op = some rate → init.lookup op = some rate ∨
          ∃ w ∈ vs, w.operator = op ∧
            (NewDecFromInt w.bondedTokens).Quo w.delegatorShares = some rate) ∧
        (∀ op, (op ∈ vs.map Validator.operator ∨ (init.lookup op).isSome) →
          (rates.lookup op).isSome) := by
  induction vs with
  | nil =>
    intro init _
    exact ⟨init, rfl, fun op rate h => Or.inl h, fun op h => by simpa using h⟩
  | cons v vs ih =>
    intro init h
    obtain ⟨rate, hrate⟩ := h v (List.mem_cons_self _ _)
    obtain ⟨rates, h1, h2, h3⟩ :=
      ih ((v.operator, rate) :: init) (fun w hw => h w (List.mem_cons_of_mem _ hw))
    refine ⟨rates, ?_, ?_, ?_⟩
    · rw [tokenShareRatesFrom_cons init v vs rate hrate]
      exact h1
    · intro op r hr
      rcases h2 op r hr with h' | ⟨w, hw, e1, e2⟩
      · rw [lookup_cons_eq] at h'
        by_cases e : op = v.operator
        · rw [if_pos e] at h'
          refine Or.inr ⟨v, List.mem_cons_self _ _, e.symm, ?_⟩
          rw [hrate, h']
        · rw [if_neg e] at h'
          exact Or.inl h'
      · exact Or.inr ⟨w, List.mem_cons_of_mem _ hw, e1, e2⟩
    · intro op hop
      apply h3
      rw [lookup_cons_eq]
      by_cases e : op = v.operator
      · right
        rw [if_pos e]
        rfl
      · rw [if_neg e]
        rcases hop with hop | hop
        · simp only [List.map_cons, List.mem_cons] at hop
          rcases hop with hop | hop
          · exact absurd hop e
          · exact Or.inl hop
        · exact Or.inr hop

/-- When the loop over the validators returns, `Quo` has returned for every validator. -/
theorem tokenShareRatesFrom_quo (vs : List Validator) :
    ∀ init rates : List (ValAddress × Dec), tokenShareRatesFrom init vs = some rates →
      ∀ v ∈ vs, ∃ rate, (NewDecFromInt v.bondedTokens).Quo v.delegatorShares = some rate := by
  induction vs with
  | nil =>
    intro init rates _ v hv
    simp at hv
  | cons w vs ih =>
    intro init rates h v hv
    cases hq : (NewDecFromInt w.bondedTokens).Quo w.delegatorShares with
    | none => simp [tokenShareRatesFrom, hq] at h
    | some rate =>
      rw [tokenShareRatesFrom_cons init w vs rate hq] at h
      rcases List.mem_cons.1 hv with e | hv
      · rw [e]
        exact ⟨rate, hq⟩
      · exact ih _ rates h v hv

theorem tokenShareRates_spec (vs : List Validator)
    (h : ∀ v ∈ vs, ∃ rate, (NewDecFromInt v.bondedTokens).Quo v.delegatorShares = some rate) :
    ∃ rates, tokenShareRates vs = some rates ∧
      (∀ op rate, rates.lookup op = some rate →
        ∃ w ∈ vs, w.operator = op ∧
          (NewDecFromInt w.bondedTokens).Quo w.delegatorShares = some rate) ∧
      (∀ op, op ∈ vs.map Validator.operator → (rates.lookup op).isSome) := by
  obtain ⟨rates, h1, h2, h3⟩ := tokenShareRatesFrom_spec vs [] h
  refine ⟨rates, h1, ?_, fun op hop => h3 op (Or.inl hop)⟩
  intro op rate hr
  rcases h2 op rate hr with h' | h'
  · simp at h'
  · exact h'

/-- The table, when it is built: its keys are the operators of the validators, and the
rate of a key is the quotient of a validator with that operator. -/
theorem tokenShareRates_some {vs : List Validator} {rates : List (ValAddress × Dec)}
    (h : tokenShareRates vs = some rates) :
    (∀ op rate, rates.lookup op = some rate →
      ∃ w ∈ vs, w.operator = op ∧
        (NewDecFromInt w.bondedTokens).Quo w.delegatorShares = some rate) ∧
    (∀ op, op ∈ vs.map Validator.operator → (rates.lookup op).isSome) := by
  obtain ⟨rates2, h1, h2, h3⟩ := tokenShareRates_spec vs (tokenShareRatesFrom_quo vs [] rates h)
  rw [h] at h1
  simp only [Option.some.injEq] at h1
  subst h1
  exact ⟨h2, h3⟩

theorem floorCoinsFrom_spec (f : Denom → Int) (denoms : List Denom) :
    ∀ init : Coins, (∀ d ∈ denoms, 0 ≤ f d) →
      floorCoinsFrom f init denoms = some (init ++ denoms.map (fun d => ⟨d, f d⟩)) := by
  induction denoms with
  | nil => intro init _; simp [floorCoinsFrom]
  | cons d ds ih =>
    intro init h
    have hd : ¬ f d < 0 := not_lt.2 (h d (List.mem_cons_self _ _))
    simp only [floorCoinsFrom, NewCoin, hd, if_false]
    rw [ih _ (fun e he => h e (List.mem_cons_of_mem _ he))]
    simp

theorem floorCoins_spec (f : Denom → Int) (denoms : List Denom) (h : ∀ d ∈ denoms, 0 ≤ f d) :
    floorCoins f denoms = some (Coins.Sort (denoms.map (fun d => ⟨d, f d⟩))) := by
  unfold floorCoins
  rw [floorCoinsFrom_spec f denoms [] h]
  simp

theorem AmountOf_floor (f : Denom → Int) (denoms : List Denom) (d : Denom) :
    Coins.AmountOf (Coins.Sort (denoms.map (fun d => ⟨d, f d⟩))) d =
      if d ∈ denoms then f d else 0 := by
  rw [AmountOf_of_forall (f := f)]
  · have : d ∈ List.map Coin.denom (Coins.Sort (denoms.map (fun d => (⟨d, f d⟩ : Coin)))) ↔
        d ∈ denoms := by
      simp only [List.mem_map, mem_Sort]
      constructor
      · rintro ⟨c, ⟨e, he, rfl⟩, rfl⟩
        exact he
      · intro hd
        exact ⟨⟨d, f d⟩, ⟨d, hd, rfl⟩, rfl⟩
    simp only [this]
  · intro c hc
    rw [mem_Sort] at hc
    obtain ⟨e, _, rfl⟩ := List.mem_map.1 hc
    rfl

/-- The test `IsAnyGTE` against the floor coins: some coin of a whitelisted denomination
reaches the floor of the denomination, that floor being non-zero. -/
theorem IsAnyGTE_floor (f : Denom → Int) (denoms : List Denom) (coins : Coins) :
    Coins.IsAnyGTE coins (Coins.Sort (denoms.map (fun d => ⟨d, f d⟩))) = true ↔
      ∃ c ∈ coins, c.denom ∈ denoms ∧ f c.denom ≤ c.amount ∧ f c.denom ≠ 0 := by
  unfold Coins.IsAnyGTE
  by_cases hl : (Coins.Sort (denoms.map (fun d => (⟨d, f d⟩ : Coin)))).length = 0
  · rw [if_pos hl]
    have hnil : denoms = [] := by
      have := (List.perm_insertionSort (fun a b : Coin => a.denom ≤ b.denom)
        (denoms.map (fun d => (⟨d, f d⟩ : Coin)))).length_eq
      unfold Coins.Sort at hl
      rw [this, List.length_map] at hl
      exact List.length_eq_zero.1 hl
    subst hnil
    simp
  · rw [if_neg hl]
    simp only [List.any_eq_true, Bool.and_eq_true, decide_eq_true_eq, Bool.not_eq_true',
      decide_eq_false_iff_not, AmountOf_floor]
    constructor
    · rintro ⟨c, hc, h1, h2⟩
      by_cases hm : c.denom ∈ denoms
      · rw [if_pos hm] at h1 h2
        exact ⟨c, hc, hm, h1, h2⟩
      · rw [if_neg hm] at h2
        exact absurd rfl h2
    · rintro ⟨c, hc, hm, h1, h2⟩
      refine ⟨c, hc, ?_, ?_⟩
      · rw [if_pos hm]; exact h1
      · rw [if_pos hm]; exact h2

end app

namespace sdk

/-- Every coin of a sum is a coin of one of the two sets or the sum of two coins of the
same denomination, one of each. -/
theorem mem_safeAdd_cases (a : Coins) :
    ∀ (b : Coins) (c : Coin), c ∈ Coins.safeAdd a b →
      c ∈ a ∨ c ∈ b ∨ ∃ x ∈ a, ∃ y ∈ b, c.amount = x.amount + y.amount ∧ c.amount ≠ 0 := by
  induction a with
  | nil =>
    intro b c h
    rw [safeAdd_nil_left, mem_removeZeroCoins] at h
    exact Or.inr (Or.inl h.1)
  | cons x as iha =>
    intro b
    induction b with
    | nil =>
      intro c h
      rw [safeAdd_nil_right, mem_removeZeroCoins] at h
      exact Or.inl h.1
    | cons y bs ihb =>
      intro c h
      have lift1 : ∀ {bb : Coins}, (∀ z, z ∈ bb → z ∈ y :: bs) →
          (c ∈ as ∨ c ∈ bb ∨ ∃ x ∈ as, ∃ y ∈ bb, c.amount = x.amount + y.amount ∧ c.amount ≠ 0) →
          c ∈ x :: as ∨ c ∈ y :: bs ∨
            ∃ x' ∈ x :: as, ∃ y' ∈ y :: bs, c.amount = x'.amount + y'.amount ∧ c.amount ≠ 0 := by
        intro bb hbb hc
        rcases hc with hc | hc | ⟨x', hx', y', hy', e⟩
        · exact Or.inl (List.mem_cons_of_mem _ hc)
        · exact Or.inr (Or.inl (hbb _ hc))
        · exact Or.inr (Or.inr ⟨x', List.mem_cons_of_mem _ hx', y', hbb _ hy', e⟩)
      rw [safeAdd_cons_cons] at h
      by_cases h1 : x.denom < y.denom
      · rw [if_pos h1, List.mem_append] at h
        rcases h with h | h
        · split_ifs at h
          · rw [List.mem_singleton] at h
            exact Or.inl (by rw [h]; exact List.mem_cons_self _ _)
          · simp at h
        · exact lift1 (fun z hz => hz) (iha _ c h)
      · rw [if_neg h1] at h
        by_cases h2 : x.denom = y.denom
        · rw [if_pos h2, List.mem_append] at h
          rcases h with h | h
          · split_ifs at h with hs
            · rw [List.mem_singleton] at h
              refine Or.inr (Or.inr ⟨x, List.mem_cons_self _ _, y, List.mem_cons_self _ _, ?_, ?_⟩)
              · rw [h]
              · rw [h]; exact hs
            · simp at h
          · exact lift1 (fun z hz => List.mem_cons_of_mem _ hz) (iha _ c h)
        · rw [if_neg h2, List.mem_append] at h
          rcases h with h | h
          · split_ifs at h
            · rw [List.mem_singleton] at h
              exact Or.inr (Or.inl (by rw [h]; exact List.mem_cons_self _ _))
            · simp at h
          · rcases ihb c h with hc | hc | ⟨x', hx', y', hy', e⟩
            · exact Or.inl hc
            · exact Or.inr (Or.inl (List.mem_cons_of_mem _ hc))
            · exact Or.inr (Or.inr ⟨x', hx', y', List.mem_cons_of_mem _ hy', e⟩)

/-- The sum of two valid sets is valid. -/
theorem IsValid_Add {a b : Coins} (ha : a.IsValid) (hb : b.IsValid) : (a.Add b).IsValid := by
  refine ⟨sorted_safeAdd a b ha.1 hb.1, ?_⟩
  intro c hc
  rcases mem_safeAdd_cases a b c hc with h | h | ⟨x, hx, y, hy, e, _⟩
  · exact ha.2 c h
  · exact hb.2 c h
  · rw [e]
    exact add_pos (ha.2 x hx) (hb.2 y hy)

theorem AmountOf_Add (d : Denom) {a b : Coins} (ha : a.IsValid) (hb : b.IsValid) :
    (a.Add b).AmountOf d = a.AmountOf d + b.AmountOf d :=
  AmountOf_safeAdd d a b ha.1 hb.1

end sdk

namespace app

open sdk

theorem visitAccount_vesting {ledger : Ledger} {rates : List (ValAddress × Dec)}
    {minC : Coins} {state next : List Account × Coins} {acc : Account}
    (h : visitAccount ledger rates minC state acc = some next) :
    next.2 = addVestingCoins ledger.blockTime state.2 acc := by
  unfold visitAccount at h
  simp only at h
  split at h
  · exact absurd h (by simp)
  · split_ifs at h
    · simp only [Option.some.injEq] at h
      rw [← h]
    · simp only [Option.some.injEq] at h
      rw [← h]

theorem addVestingCoins_spec (t : Nat) (vc : Coins) (acc : Account) (hvc : vc.IsValid)
    (hacc : ∀ f, acc.vesting = some f → (f t).IsValid) :
    (addVestingCoins t vc acc).IsValid ∧
      ∀ d, (addVestingCoins t vc acc).AmountOf d =
        vc.AmountOf d + ((acc.vesting.toList).map (fun f => (f t).AmountOf d)).sum := by
  unfold addVestingCoins
  cases hv : acc.vesting with
  | none => simp [hvc]
  | some f =>
    have hf := hacc f hv
    refine ⟨IsValid_Add hvc hf, fun d => ?_⟩
    simp only [AmountOf_Add d hvc hf]
    simp

theorem visitAccounts_vesting (ledger : Ledger) (rates : List (ValAddress × Dec)) (minC : Coins)
    (accounts : List Account) :
    ∀ state res, visitAccounts ledger rates minC state accounts = some res →
      (∀ acc ∈ accounts, ∀ f, acc.vesting = some f → (f ledger.blockTime).IsValid) →
      state.2.IsValid →
      res.2.IsValid ∧ ∀ d, res.2.AmountOf d = state.2.AmountOf d +
        ((accounts.filterMap (fun acc => acc.vesting)).map
          (fun f => (f ledger.blockTime).AmountOf d)).sum := by
  induction accounts with
  | nil =>
    intro state res h _ hs
    simp only [visitAccounts, Option.some.injEq] at h
    subst h
    exact ⟨hs, fun d => by simp⟩
  | cons acc rest ih =>
    intro state res h hacc hs
    simp only [visitAccounts] at h
    split at h
    · exact absurd h (by simp)
    · rename_i next hnext
      have hv := visitAccount_vesting hnext
      have hstep := addVestingCoins_spec ledger.blockTime state.2 acc hs
        (hacc acc (List.mem_cons_self _ _))
      rw [← hv] at hstep
      obtain ⟨h1, h2⟩ := ih next res h (fun a ha => hacc a (List.mem_cons_of_mem _ ha)) hstep.1
      refine ⟨h1, fun d => ?_⟩
      rw [h2 d, hstep.2 d]
      cases hvest : acc.vesting with
      | none => simp [List.filterMap_cons, hvest]
      | some f => simp [List.filterMap_cons, hvest, add_assoc]

/-- The coins an account is given do not depend on its unbonding delegations: the pass
gives the same coins on the ledger with every unbonding delegation taken away. -/
theorem effectiveCoins_ignores_unbonding (ledger : Ledger) (rates : List (ValAddress × Dec))
    (acc : Account) :
    effectiveCoins ledger rates acc =
      effectiveCoins { ledger with unbondingDelegations := fun _ => [] } rates acc := by
  unfold effectiveCoins
  simp only [unbondingAmt_eq_zero]

/-- C1 (the code drops the unbonding balances): in the scenario of the spec the
aggregation pass gives account A 20 in the staking denomination, the tokens of its
delegation alone, where liquid amount, delegation tokens and unbonding balances add up
to 23; the same at the micro scale, through the whole of `trackingAll`. -/
theorem trackingAll_scenario_drops_unbonding :
    tokenShareRates scenarioLedger.validators = some [("V", ⟨2000000000000000000⟩)] ∧
    (effectiveCoins scenarioLedger [("V", ⟨2000000000000000000⟩)] scenarioAccount).map
        (fun coins => (coins, coins.AmountOf stakingDenom))
      = some ([⟨denomA, 5⟩, ⟨stakingDenom, 20⟩], 20) ∧
    scenarioAccount.coins.AmountOf stakingDenom
        + (((scenarioLedger.delegations "A").map
            (fun d => (delegationAmt [("V", ⟨2000000000000000000⟩)] d).getD 0)).sum)
        + (((scenarioLedger.unbondingDelegations "A").map undelegationAmt).sum) = 23 ∧
    (trackingAll scenarioLedgerMicro).map
        (fun res => res.1.map (fun acc => (acc.address, acc.coins)))
      = some [("A", [⟨denomA, 5000000⟩, ⟨stakingDenom, 20000000⟩])] := by
  decide

/-- The threshold at work in `trackingAll`: of five accounts holding exactly 1,000,000 of
a whitelisted denomination, 999,999 of it, 600,000 of each of the two whitelisted
denominations, 2,000,000 of a denomination off the whitelist, and nothing, only the
first is kept. -/
theorem trackingAll_threshold_examples :
    (trackingAll (liquidLedger [denomA, denomB]
        [("A", [⟨denomA, 1000000⟩]), ("B", [⟨denomA, 999999⟩]),
         ("C", [⟨denomA, 600000⟩, ⟨denomB, 600000⟩]), ("D", [⟨stakingDenom, 2000000⟩]),
         ("E", [])])).map (fun res => res.1.map (fun acc => acc.address)) = some ["A"] := by
  decide

end app

namespace app

open sdk

/-- What the conversion of a delegation returns, when it returns. -/
theorem delegationAmt_eq_some {rates : List (ValAddress × Dec)} {delegation : Delegation}
    {amt : Int} (h : delegationAmt rates delegation = some amt) :
    ∃ rate, rates.lookup delegation.validatorAddr = some rate ∧
      amt = chopPrecisionAndTruncate (chopPrecisionAndRound (delegation.shares.int * rate.int)) := by
  unfold delegationAmt at h
  cases hl : rates.lookup delegation.validatorAddr with
  | none => simp [hl] at h
  | some rate =>
    cases hm : delegation.shares.Mul rate with
    | none => simp [hl, hm] at h
    | some product =>
      simp only [hl, hm] at h
      refine ⟨rate, rfl, ?_⟩
      rw [TruncateInt_eq_some h, Mul_eq_some hm]

/-- The conversion of a delegation returns when the shares are below `2^150` and the rate
is at most `2^100`. -/
theorem delegationAmt_returns {rates : List (ValAddress × Dec)} {delegation : Delegation}
    {rate : Dec} (h : rates.lookup delegation.validatorAddr = some rate)
    (hs : 0 ≤ delegation.shares.int) (hs2 : delegation.shares.int < 2 ^ 150)
    (hr : 0 ≤ rate.int)
    (hr2 : rate.int ≤ 1267650600228229401496703205376000000000000000000000000000000000000) :
    ∃ amt, delegationAmt rates delegation = some amt ∧ 0 ≤ amt := by
  obtain ⟨product, amt, h1, h2, h3⟩ := Mul_TruncateInt_returns delegation.shares rate hs hs2 hr hr2
  refine ⟨amt, ?_, h3⟩
  unfold delegationAmt
  simp only [h, h1]
  exact h2

theorem stakingAmtFrom_cons {rates : List (ValAddress × Dec)} {delegation : Delegation}
    {amt : Int} (h : delegationAmt rates delegation = some amt) (s : Int)
    (rest : List Delegation) :
    stakingAmtFrom rates s (delegation :: rest) = stakingAmtFrom rates (s + amt) rest := by
  simp only [stakingAmtFrom, h]

/-- A delegation whose conversion panics stops the loop over the delegations, wherever it
stands in the list. -/
theorem stakingAmtFrom_none {rates : List (ValAddress × Dec)} {delegation : Delegation}
    (h : delegationAmt rates delegation = none) :
    ∀ (front rest : List Delegation) (s : Int),
      stakingAmtFrom rates s (front ++ delegation :: rest) = none := by
  intro front
  induction front with
  | nil =>
    intro rest s
    simp only [List.nil_append, stakingAmtFrom, h]
  | cons d front ih =>
    intro rest s
    cases hd : delegationAmt rates d with
    | none => simp only [List.cons_append, stakingAmtFrom, hd]
    | some amt =>
      rw [List.cons_append, stakingAmtFrom_cons hd]
      exact ih rest _

/-- An account whose coins cannot be computed stops the iteration over the accounts. -/
theorem visitAccounts_none (ledger : Ledger) (rates : List (ValAddress × Dec)) (minC : Coins)
    (acc : Account) (h : effectiveCoins ledger rates acc = none) :
    ∀ (accounts : List Account), acc ∈ accounts →
      ∀ state, visitAccounts ledger rates minC state accounts = none := by
  intro accounts
  induction accounts with
  | nil =>
    intro hm
    simp at hm
  | cons a rest ih =>
    intro hm state
    cases hv : visitAccount ledger rates minC state a with
    | none => simp only [visitAccounts, hv]
    | some next =>
      simp only [visitAccounts, hv]
      rcases List.mem_cons.1 hm with e | hm
      · subst e
        simp [visitAccount, h] at hv
      · exact ih hm next

/-- A delegation of a visited account that references a validator the table has no entry
for fails the aggregation pass. -/
theorem trackingAll_none_of_missing_rate (ledger : Ledger) (rates : List (ValAddress × Dec))
    (hrates : tokenShareRates ledger.validators = some rates)
    (acc : Account) (hacc : acc ∈ ledger.accounts) (delegation : Delegation)
    (hd : delegation ∈ ledger.delegations acc.address)
    (hl : rates.lookup delegation.validatorAddr = none) :
    trackingAll ledger = none := by
  have hamt : delegationAmt rates delegation = none := by
    unfold delegationAmt
    rw [hl]
  obtain ⟨front, rest, e⟩ := List.append_of_mem hd
  have heff : effectiveCoins ledger rates acc = none := by
    unfold effectiveCoins stakingAmt
    rw [e, stakingAmtFrom_none hamt front rest 0]
  unfold trackingAll
  rw [hrates]
  cases minCoins ledger.whitelist with
  | none => rfl
  | some minC => exact visitAccounts_none ledger rates minC acc heff _ hacc _

/-- C7 (as the code has it): `trackingAll` leaves no validator out of the exchange-rate
table and has no zero contribution for a missing rate. A validator whose delegator shares
are zero makes the division panic: no table is built and the run fails. When the table is
built it holds a rate for the operator of every validator and for no other key; a
delegation that references a validator absent from the table makes the conversion
panic, which stops the loop over the delegations, and when a visited account has such a
delegation the run fails. -/
theorem tokenShareRates_covers_validators (ledger : Ledger) :
    ((∃ v ∈ ledger.validators, v.delegatorShares.int = 0) →
      tokenShareRates ledger.validators = none ∧ trackingAll ledger = none) ∧
    ∀ rates, tokenShareRates ledger.validators = some rates →
      (∀ op, (rates.lookup op).isSome ↔ op ∈ ledger.validators.map Validator.operator) ∧
      (∀ delegation : Delegation,
        delegation.validatorAddr ∉ ledger.validators.map Validator.operator →
        delegationAmt rates delegation = none ∧
        ∀ (front rest : List Delegation) (s : Int),
          stakingAmtFrom rates s (front ++ delegation :: rest) = none) ∧
      ((∃ acc ∈ ledger.accounts, ∃ delegation ∈ ledger.delegations acc.address,
          delegation.validatorAddr ∉ ledger.validators.map Validator.operator) →
        trackingAll ledger = none) := by
  constructor
  · rintro ⟨v, hv, hz⟩
    have hnone : tokenShareRates ledger.validators = none := by
      cases hr : tokenShareRates ledger.validators with
      | none => rfl
      | some rates =>
        obtain ⟨rate, hq⟩ := tokenShareRatesFrom_quo ledger.validators [] rates hr v hv
        unfold Dec.Quo at hq
        rw [if_pos hz] at hq
        exact absurd hq (by simp)
    refine ⟨hnone, ?_⟩
    unfold trackingAll
    rw [hnone]
  · intro rates hrates
    obtain ⟨h2, h3⟩ := tokenShareRates_some hrates
    have hkeys : ∀ op, (rates.lookup op).isSome ↔ op ∈ ledger.validators.map Validator.operator := by
      intro op
      refine ⟨fun hop => ?_, h3 op⟩
      obtain ⟨rate, hrate⟩ := Option.isSome_iff_exists.1 hop
      obtain ⟨w, hw, e, _⟩ := h2 op rate hrate
      rw [← e]
      exact List.mem_map_of_mem _ hw
    have hmiss : ∀ delegation : Delegation,
        delegation.validatorAddr ∉ ledger.validators.map Validator.operator →
        rates.lookup delegation.validatorAddr = none := by
      intro delegation hd
      cases hl : rates.lookup delegation.validatorAddr with
      | none => rfl
      | some rate =>
        have : (rates.lookup delegation.validatorAddr).isSome := by rw [hl]; rfl
        exact absurd ((hkeys _).1 this) hd
    refine ⟨hkeys, fun delegation hd => ?_, ?_⟩
    · have hamt : delegationAmt rates delegation = none := by
        unfold delegationAmt
        rw [hmiss delegation hd]
      exact ⟨hamt, stakingAmtFrom_none hamt⟩
    · rintro ⟨acc, hacc, delegation, hdel, hd⟩
      exact trackingAll_none_of_missing_rate ledger rates hrates acc hacc delegation hdel
        (hmiss delegation hd)

/-- The witness of C7: the run on the ledger whose validator has zero delegator shares
fails, and so does the run on the ledger whose account delegates to a validator the table
has no entry for. -/
theorem tokenShareRates_covers_validators_witness :
    (∃ v ∈ zeroSharesLedger.validators, v.delegatorShares.int = 0) ∧
    tokenShareRates zeroSharesLedger.validators = none ∧
    trackingAll zeroSharesLedger = none ∧
    tokenShareRates missingRateLedger.validators = some [] ∧
    (∃ acc ∈ missingRateLedger.accounts, ∃ delegation ∈ missingRateLedger.delegations acc.address,
      delegation.validatorAddr ∉ missingRateLedger.validators.map Validator.operator) ∧
    trackingAll missingRateLedger = none :=
  ⟨⟨_, List.mem_singleton_self _, rfl⟩,
    ((tokenShareRates_covers_validators zeroSharesLedger).1
      ⟨_, List.mem_singleton_self _, rfl⟩).1,
    ((tokenShareRates_covers_validators zeroSharesLedger).1
      ⟨_, List.mem_singleton_self _, rfl⟩).2,
    rfl,
    ⟨_, List.mem_singleton_self _, _, List.mem_singleton_self _, by decide⟩,
    ((tokenShareRates_covers_validators missingRateLedger).2 [] rfl).2.2
      ⟨_, List.mem_singleton_self _, _, List.mem_singleton_self _, by decide⟩⟩

/-- C7 as stated fails: with a validator of zero delegator shares no table is built and
the run fails, and so does the run in which a delegation references a validator the
table has no entry for; in neither is a zero contribution recorded. -/
theorem trackingAll_fails_on_missing_rate :
    tokenShareRates zeroSharesLedger.validators = none ∧
    (trackingAll zeroSharesLedger).isSome = false ∧
    tokenShareRates missingRateLedger.validators = some [] ∧
    delegationAmt [] ⟨"V", ⟨10000000000000000000⟩⟩ = none ∧
    stakingAmt [] (missingRateLedger.delegations "A") = none ∧
    (trackingAll missingRateLedger).isSome = false := by
  decide

/-- C8 (as the code has it): for validators with non-negative bonded tokens and positive
delegator shares, the rate stored for the validator a delegation references is within
one unit of the 18th fractional digit of bondedTokens / delegatorShares, and the
converted amount is the product shares × rate rounded half to even at 18 digits and
then truncated: it is non-negative and is the floor of shares × rate or one above it.
The rates are stored and the amount is converted whenever the bonded tokens are below
`2^100` and the shares of the delegation below `2^150` units of the 18th digit, where
the fixed-point operations stay in range. -/
theorem delegationAmt_bounds (validators : List Validator) (delegation : Delegation)
    (hv : ∀ v ∈ validators, 0 ≤ v.bondedTokens ∧ 0 < v.delegatorShares.int)
    (hd : delegation.validatorAddr ∈ validators.map Validator.operator)
    (hs : 0 ≤ delegation.shares.int) :
    (∀ rates, tokenShareRates validators = some rates →
      ∃ v ∈ validators, ∃ rate, v.operator = delegation.validatorAddr ∧
        rates.lookup delegation.validatorAddr = some rate ∧
        0 ≤ rate.int ∧
        (rate.int - 1) * v.delegatorShares.int
          < v.bondedTokens * 1000000000000000000000000000000000000 ∧
        v.bondedTokens * 1000000000000000000000000000000000000
          < (rate.int + 1) * v.delegatorShares.int ∧
        ∀ amt, delegationAmt rates delegation = some amt →
          amt = chopPrecisionAndTruncate
            (chopPrecisionAndRound (delegation.shares.int * rate.int)) ∧
          0 ≤ amt ∧
          delegation.shares.int * rate.int / 1000000000000000000000000000000000000 ≤ amt ∧
          amt ≤ delegation.shares.int * rate.int / 1000000000000000000000000000000000000 + 1) ∧
    ((∀ v ∈ validators, v.bondedTokens < 2 ^ 100) → delegation.shares.int < 2 ^ 150 →
      ∃ rates amt, tokenShareRates validators = some rates ∧
        delegationAmt rates delegation = some amt) := by
  have hrate : ∀ rates, tokenShareRates validators = some rates →
      ∃ v ∈ validators, ∃ rate, v.operator = delegation.validatorAddr ∧
        rates.lookup delegation.validatorAddr = some rate ∧
        (NewDecFromInt v.bondedTokens).Quo v.delegatorShares = some rate := by
    intro rates hrates
    obtain ⟨h2, h3⟩ := tokenShareRates_some hrates
    obtain ⟨rate, hr⟩ := Option.isSome_iff_exists.1 (h3 _ hd)
    obtain ⟨w, hw, e, hq⟩ := h2 _ rate hr
    exact ⟨w, hw, rate, e, hr, hq⟩
  constructor
  · intro rates hrates
    obtain ⟨w, hw, rate, e, hr, hq⟩ := hrate rates hrates
    obtain ⟨q1, q2, q3⟩ :=
      Quo_bounds w.bondedTokens w.delegatorShares rate (hv w hw).1 (hv w hw).2 hq
    refine ⟨w, hw, rate, e, hr, q1, q2, q3, ?_⟩
    intro amt hamt
    obtain ⟨rate2, hr2, ha⟩ := delegationAmt_eq_some hamt
    rw [hr] at hr2
    simp only [Option.some.injEq] at hr2
    subst hr2
    obtain ⟨t1, t2, t3⟩ := truncate_round_bounds (delegation.shares.int * rate.int)
      (mul_nonneg hs q1)
    rw [ha]
    exact ⟨rfl, t3, t1, t2⟩
  · intro hb hs2
    obtain ⟨rates, h1, _, _⟩ := tokenShareRates_spec validators (fun v hv' => by
      obtain ⟨rate, hq, _⟩ :=
        Quo_returns v.bondedTokens v.delegatorShares (hv v hv').1 (hb v hv') (hv v hv').2
      exact ⟨rate, hq⟩)
    obtain ⟨w, hw, rate, _, hr, hq⟩ := hrate rates h1
    obtain ⟨rate2, hq2, hle⟩ :=
      Quo_returns w.bondedTokens w.delegatorShares (hv w hw).1 (hb w hw) (hv w hw).2
    rw [hq] at hq2
    simp only [Option.some.injEq] at hq2
    subst hq2
    obtain ⟨amt, hamt, _⟩ := delegationAmt_returns hr hs hs2
      (Quo_bounds w.bondedTokens w.delegatorShares rate (hv w hw).1 (hv w hw).2 hq).1 hle
    exact ⟨rates, amt, h1, hamt⟩

/-- The witness of C8: the scenario of the spec, 10 shares at rate 2.0 give 20 tokens. -/
theorem delegationAmt_bounds_witness :
    tokenShareRates scenarioLedger.validators = some [("V", ⟨2000000000000000000⟩)] ∧
    delegationAmt [("V", ⟨2000000000000000000⟩)] ⟨"V", ⟨10000000000000000000⟩⟩ = some 20 ∧
    (∀ rates, tokenShareRates scenarioLedger.validators = some rates →
      ∃ v ∈ scenarioLedger.validators, ∃ rate, v.operator = "V" ∧
        rates.lookup "V" = some rate ∧
        0 ≤ rate.int ∧
        (rate.int - 1) * v.delegatorShares.int
          < v.bondedTokens * 1000000000000000000000000000000000000 ∧
        v.bondedTokens * 1000000000000000000000000000000000000
          < (rate.int + 1) * v.delegatorShares.int ∧
        ∀ amt, delegationAmt rates ⟨"V", ⟨10000000000000000000⟩⟩ = some amt →
          amt = chopPrecisionAndTruncate
            (chopPrecisionAndRound (10000000000000000000 * rate.int)) ∧
          0 ≤ amt ∧
          10000000000000000000 * rate.int / 1000000000000000000000000000000000000 ≤ amt ∧
          amt ≤ 10000000000000000000 * rate.int / 1000000000000000000000000000000000000 + 1) ∧
    ∃ rates amt, tokenShareRates scenarioLedger.validators = some rates ∧
      delegationAmt rates ⟨"V", ⟨10000000000000000000⟩⟩ = some amt :=
  ⟨by decide, by decide,
    (delegationAmt_bounds scenarioLedger.validators ⟨"V", ⟨10000000000000000000⟩⟩
      (by decide) (by decide) (by decide)).1,
    (delegationAmt_bounds scenarioLedger.validators ⟨"V", ⟨10000000000000000000⟩⟩
      (by decide) (by decide) (by decide)).2
      (fun v hv => by
        rw [List.mem_singleton.1 hv]
        norm_num)
      (by norm_num)⟩

/-- C8 as stated fails: a validator with 1 bonded token and 2 delegator shares has the
rate 0.5 stored exactly, and a delegation of 1.999999999999999999 shares converts to 1
token, above the floor 0 of shares × rate = 0.9999999999999999995; and a validator with
2 bonded tokens and 3 delegator shares has the rate 0.666666666666666667 stored, which
is not 2 / 3. -/
theorem delegationAmt_rounds_up :
    tokenShareRates [⟨"V", 1, ⟨2000000000000000000⟩⟩] = some [("V", ⟨500000000000000000⟩)] ∧
    delegationAmt [("V", ⟨500000000000000000⟩)] ⟨"V", ⟨1999999999999999999⟩⟩ = some 1 ∧
    (1999999999999999999 * 500000000000000000 : Int)
      / 1000000000000000000000000000000000000 = 0 ∧
    tokenShareRates [⟨"W", 2, ⟨3000000000000000000⟩⟩] = some [("W", ⟨666666666666666667⟩)] ∧
    (666666666666666667 * 3000000000000000000 : Int)
      ≠ 2 * 1000000000000000000000000000000000000 := by
  decide

/-- The range checks at work. With 10^60 bonded tokens and one delegator share the rate
10^60 is stored, and the conversion of 2^300 units of shares panics in `Mul`; with 2^200
bonded tokens and 10^-18 delegator shares the division panics and no table is built; a
product below 2^315 is truncated to a value below 2^255, and one of 2^315 panics. -/
theorem delegationAmt_out_of_range :
    tokenShareRates [⟨"V", 1000000000000000000000000000000000000000000000000000000000000, ⟨1000000000000000000⟩⟩]
      = some [("V", ⟨1000000000000000000000000000000000000000000000000000000000000000000000000000000⟩)] ∧
    delegationAmt [("V", ⟨1000000000000000000000000000000000000000000000000000000000000000000000000000000⟩)]
      ⟨"V", ⟨2037035976334486086268445688409378161051468393665936250636140449354381299763336706183397376⟩⟩ = none ∧
    tokenShareRates [⟨"V", 1606938044258990275541962092341162602522202993782792835301376, ⟨1⟩⟩] = none ∧
    delegationAmt [("V", ⟨1000000000000000000⟩)]
      ⟨"V", ⟨33374797436264220037422214158899251790667258161822699530422525122222183215322508594108782608384⟩⟩
      = some 33374797436264220037422214158899251790667258161822699530422525122222183215322 ∧
    delegationAmt [("V", ⟨1000000000000000000⟩)]
      ⟨"V", ⟨66749594872528440074844428317798503581334516323645399060845050244444366430645017188217565216768⟩⟩
      = none := by
  decide

/-- C9: the vesting total handed to `exportVestingSupply` is a valid coin set whose
amount in every denomination is the sum of the amounts that the vesting coins of the
accounts with a vesting schedule hold in it; the other accounts add nothing. -/
theorem trackingAll_vestingCoins (ledger : Ledger) (accs : List Account) (vestingCoins : Coins)
    (h : trackingAll ledger = some (accs, vestingCoins))
    (hvalid : ∀ f ∈ ledger.accounts.filterMap (fun acc => acc.vesting),
      (f ledger.blockTime).IsValid) :
    vestingCoins.IsValid ∧
      ∀ d, vestingCoins.AmountOf d =
        ((ledger.accounts.filterMap (fun acc => acc.vesting)).map
          (fun f => (f ledger.blockTime).AmountOf d)).sum := by
  unfold trackingAll at h
  cases hr : tokenShareRates ledger.validators with
  | none =>
    rw [hr] at h
    exact absurd h (by simp)
  | some rates =>
    cases hm : minCoins ledger.whitelist with
    | none =>
      rw [hr, hm] at h
      exact absurd h (by simp)
    | some minC =>
      rw [hr, hm] at h
      simp only at h
      have hv : ∀ acc ∈ ledger.accounts, ∀ f, acc.vesting = some f →
          (f ledger.blockTime).IsValid := by
        intro acc hacc f hf
        exact hvalid f (List.mem_filterMap.2 ⟨acc, hacc, hf⟩)
      have hnil : Coins.IsValid [] := by decide
      obtain ⟨h1, h2⟩ := visitAccounts_vesting ledger rates minC ledger.accounts ([], [])
        (accs, vestingCoins) h hv hnil
      refine ⟨h1, fun d => ?_⟩
      rw [h2 d]
      simp [Coins.AmountOf]

/-- The witness of C9: vesting coins `{denomA: 10}` and `{denomA: 5, denomB: 2}` give the
total `{denomA: 15, denomB: 2}`. -/
theorem trackingAll_vestingCoins_witness :
    trackingAll vestingLedger = some ([], [⟨denomA, 15⟩, ⟨denomB, 2⟩]) ∧
    Coins.IsValid [⟨denomA, 15⟩, ⟨denomB, 2⟩] ∧
      ∀ d, Coins.AmountOf [⟨denomA, 15⟩, ⟨denomB, 2⟩] d =
        ((vestingLedger.accounts.filterMap (fun acc => acc.vesting)).map
          (fun f => (f vestingLedger.blockTime).AmountOf d)).sum :=
  ⟨rfl, trackingAll_vestingCoins vestingLedger [] [⟨denomA, 15⟩, ⟨denomB, 2⟩] rfl (by decide)⟩

/-- C10 (as the code has it): with floors that are positive in every whitelisted
denomination, raising floors never lets an account in: the accounts kept under the
higher floors are among the accounts kept under the lower ones. -/
theorem IsAnyGTE_floor_antitone (floor1 floor2 : Denom → Int) (denoms : List Denom)
    (hpos : ∀ d ∈ denoms, 0 < floor1 d)
    (hle : ∀ d ∈ denoms, floor1 d ≤ floor2 d) :
    ∃ min1 min2, floorCoins floor1 denoms = some min1 ∧ floorCoins floor2 denoms = some min2 ∧
      (∀ coins : Coins, coins.IsAnyGTE min2 = true → coins.IsAnyGTE min1 = true) ∧
      ∀ accs : List Account,
        (accs.filter (fun acc => acc.coins.IsAnyGTE min2)).Sublist
          (accs.filter (fun acc => acc.coins.IsAnyGTE min1)) := by
  have h1 := floorCoins_spec floor1 denoms (fun d hd => le_of_lt (hpos d hd))
  have h2 := floorCoins_spec floor2 denoms
    (fun d hd => le_trans (le_of_lt (hpos d hd)) (hle d hd))
  have hmono : ∀ coins : Coins,
      coins.IsAnyGTE (Coins.Sort (denoms.map (fun d => ⟨d, floor2 d⟩))) = true →
      coins.IsAnyGTE (Coins.Sort (denoms.map (fun d => ⟨d, floor1 d⟩))) = true := by
    intro coins hc
    rw [IsAnyGTE_floor] at hc ⊢
    obtain ⟨c, hc, hm, hge, _⟩ := hc
    exact ⟨c, hc, hm, le_trans (hle _ hm) hge, ne_of_gt (hpos _ hm)⟩
  refine ⟨_, _, h1, h2, hmono, fun accs => ?_⟩
  exact List.monotone_filter_right accs (fun acc h => hmono acc.coins h)

/-- The witness of C10: floors 1,000,000 and 2,000,000 on one denomination. -/
theorem IsAnyGTE_floor_antitone_witness :
    (∀ d ∈ [denomA], 0 < (fun _ => (1000000 : Int)) d) ∧
    ∃ min1 min2, floorCoins (fun _ => 1000000) [denomA] = some min1 ∧
      floorCoins (fun _ => 2000000) [denomA] = some min2 ∧
      (∀ coins : Coins, coins.IsAnyGTE min2 = true → coins.IsAnyGTE min1 = true) ∧
      ∀ accs : List Account,
        (accs.filter (fun acc => acc.coins.IsAnyGTE min2)).Sublist
          (accs.filter (fun acc => acc.coins.IsAnyGTE min1)) :=
  ⟨by decide,
    IsAnyGTE_floor_antitone (fun _ => 1000000) (fun _ => 2000000) [denomA]
      (by decide) (by decide)⟩

/-- C10 as stated fails: under the floor 5 an account holding 10 is kept, under the
lower floor 0 it is not, because `IsAnyGTE` passes over a denomination whose floor is
zero. -/
theorem IsAnyGTE_zero_floor_not_monotone :
    floorCoins (fun _ => 0) [denomA] = some [⟨denomA, 0⟩] ∧
    floorCoins (fun _ => 5) [denomA] = some [⟨denomA, 5⟩] ∧
    (∀ d ∈ [denomA], (fun _ => (0 : Int)) d ≤ (fun _ => (5 : Int)) d) ∧
    Coins.IsAnyGTE [⟨denomA, 10⟩] [⟨denomA, 5⟩] = true ∧
    Coins.IsAnyGTE [⟨denomA, 10⟩] [⟨denomA, 0⟩] = false := by
  decide

end app

namespace app

open sdk

/-! ## The selection of the top accounts -/

/-- The scan ends on the earliest position that holds the greatest amount of the pool. -/
theorem scanTop_spec (denom : Denom) (rest : List Account) :
    ∀ (pre : List Account) (top : Nat × Int × AccAddress),
      (pre = [] ∨ ∃ a, pre[top.1]? = some a ∧ top.2.1 = a.coins.AmountOf denom ∧
          top.2.2 = a.address ∧
          (∀ b ∈ pre, b.coins.AmountOf denom ≤ top.2.1) ∧
          (∀ j b, j < top.1 → pre[j]? = some b → b.coins.AmountOf denom < top.2.1)) →
      pre ++ rest ≠ [] →
      ∃ a, (pre ++ rest)[(scanTop denom rest pre.length top).1]? = some a ∧
        (scanTop denom rest pre.length top).2.1 = a.coins.AmountOf denom ∧
        (scanTop denom rest pre.length top).2.2 = a.address ∧
        (∀ b ∈ pre ++ rest,
          b.coins.AmountOf denom ≤ (scanTop denom rest pre.length top).2.1) ∧
        (∀ j b, j < (scanTop denom rest pre.length top).1 → (pre ++ rest)[j]? = some b →
          b.coins.AmountOf denom < (scanTop denom rest pre.length top).2.1) := by
  induction rest with
  | nil =>
    intro pre top h hne
    rw [List.append_nil] at hne ⊢
    rcases h with h | h
    · exact absurd h hne
    · simpa only [scanTop] using h
  | cons x xs ih =>
    intro pre top h hne
    have hlen : (pre ++ [x]).length = pre.length + 1 := by simp
    have happ : pre ++ x :: xs = (pre ++ [x]) ++ xs := by simp
    have hne2 : (pre ++ [x]) ++ xs ≠ [] := by simp
    by_cases hc : pre.length = 0 ∨ top.2.1 < x.coins.AmountOf denom
    · have e : scanTop denom (x :: xs) pre.length top =
          scanTop denom xs (pre ++ [x]).length
            (pre.length, x.coins.AmountOf denom, x.address) := by
        rw [hlen]
        simp only [scanTop]
        rw [if_pos hc]
      rw [e, happ]
      apply ih (pre ++ [x]) _ _ hne2
      right
      refine ⟨x, List.getElem?_concat_length pre x, rfl, rfl, ?_, ?_⟩
      · intro b hb
        rcases List.mem_append.1 hb with hb | hb
        · rcases h with h | ⟨a, _, _, _, h4, _⟩
          · subst h
            simp at hb
          · rcases hc with hc | hc
            · have hnil : pre = [] := List.length_eq_zero.1 hc
              subst hnil
              simp at hb
            · exact le_of_lt (lt_of_le_of_lt (h4 b hb) hc)
        · rw [List.mem_singleton] at hb
          subst hb
          exact le_refl _
      · intro j b hj hb
        have hj2 : j < pre.length := hj
        rw [List.getElem?_append_left hj2] at hb
        have hbm : b ∈ pre := List.getElem?_mem hb
        rcases h with h | ⟨a, _, _, _, h4, _⟩
        · subst h
          simp at hj2
        · rcases hc with hc | hc
          · omega
          · exact lt_of_le_of_lt (h4 b hbm) hc
    · have hc2 := not_or.1 hc
      have e : scanTop denom (x :: xs) pre.length top =
          scanTop denom xs (pre ++ [x]).length top := by
        rw [hlen]
        simp only [scanTop]
        rw [if_neg hc]
      rw [e, happ]
      apply ih (pre ++ [x]) _ _ hne2
      right
      rcases h with h | ⟨a, h1, h2, h3, h4, h5⟩
      · subst h
        exact absurd rfl hc2.1
      · have hlt : top.1 < pre.length := by
          obtain ⟨hlt, _⟩ := List.getElem?_eq_some.1 h1
          exact hlt
        refine ⟨a, ?_, h2, h3, ?_, ?_⟩
        · rw [List.getElem?_append_left hlt]
          exact h1
        · intro b hb
          rcases List.mem_append.1 hb with hb | hb
          · exact h4 b hb
          · rw [List.mem_singleton] at hb
            subst hb
            exact not_lt.1 hc2.2
        · intro j b hj hb
          rw [List.getElem?_append_left (lt_trans hj hlt)] at hb
          exact h5 j b hj hb

theorem removeSwapLast_cons_cons_zero {α : Type} (x y : α) (ys : List α) :
    ∃ last, (y :: ys).getLast? = some last ∧
      removeSwapLast (x :: y :: ys) 0 = some (last :: (y :: ys).dropLast) ∧
      (y :: ys).Perm (last :: (y :: ys).dropLast) := by
  have hne : y :: ys ≠ [] := by simp
  refine ⟨(y :: ys).getLast hne, List.getLast?_eq_getLast _ hne, ?_, ?_⟩
  · unfold removeSwapLast
    rw [List.getLast?_cons_cons, List.getLast?_eq_getLast _ hne]
    simp only [List.set_cons_zero]
    rw [List.dropLast_cons_of_ne_nil hne]
  · have h := List.dropLast_concat_getLast hne
    have hp : ((y :: ys).dropLast ++ [(y :: ys).getLast hne]).Perm
        ((y :: ys).getLast hne :: (y :: ys).dropLast) :=
      @List.perm_append_comm _ (y :: ys).dropLast [(y :: ys).getLast hne]
    rw [h] at hp
    exact hp

theorem removeSwapLast_cons_cons_succ {α : Type} (x y : α) (ys : List α) (k : Nat) :
    removeSwapLast (x :: y :: ys) (k + 1) =
      (removeSwapLast (y :: ys) k).map (fun rest => x :: rest) := by
  have hne : y :: ys ≠ [] := by simp
  unfold removeSwapLast
  rw [List.getLast?_cons_cons, List.getLast?_eq_getLast _ hne]
  simp only [List.set_cons_succ, Option.map_some']
  rw [List.dropLast_cons_of_ne_nil]
  simp

/-- Taking the element at a position out by `removeSwapLast` leaves the other elements. -/
theorem removeSwapLast_perm {α : Type} (xs : List α) :
    ∀ (i : Nat) (a : α), xs[i]? = some a →
      ∃ ys, removeSwapLast xs i = some ys ∧ xs.Perm (a :: ys) := by
  induction xs with
  | nil =>
    intro i a h
    simp at h
  | cons x xs ih =>
    intro i a h
    cases xs with
    | nil =>
      cases i with
      | zero =>
        simp only [List.getElem?_cons_zero, Option.some.injEq] at h
        subst h
        exact ⟨[], rfl, List.Perm.refl _⟩
      | succ k => simp at h
    | cons y ys =>
      cases i with
      | zero =>
        simp only [List.getElem?_cons_zero, Option.some.injEq] at h
        subst h
        obtain ⟨last, _, h2, h3⟩ := removeSwapLast_cons_cons_zero x y ys
        exact ⟨_, h2, List.Perm.cons _ h3⟩
      | succ k =>
        rw [List.getElem?_cons_succ] at h
        obtain ⟨zs, h1, h2⟩ := ih k a h
        refine ⟨x :: zs, ?_, ?_⟩
        · rw [removeSwapLast_cons_cons_succ, h1]
          rfl
        · exact (List.Perm.cons x h2).trans (List.Perm.swap a x zs)

theorem removeSwapLast_map {α β : Type} (f : α → β) (xs : List α) (i : Nat) :
    removeSwapLast (xs.map f) i = (removeSwapLast xs i).map (List.map f) := by
  unfold removeSwapLast
  rw [List.getLast?_map]
  cases xs.getLast? with
  | none => rfl
  | some last => simp [List.map_set]

/-- One round on a non-empty pool: the entry is that of the earliest account holding the
greatest amount, and the pool left is the pool without it. -/
theorem selectRound_spec (denom : Denom) (tmpAccs : List Account) (hne : tmpAccs ≠ []) :
    ∃ i a rest, tmpAccs[i]? = some a ∧
      selectRound denom tmpAccs =
        some (NewExportAccount a.address (a.coins.AmountOf denom), rest) ∧
      removeSwapLast tmpAccs i = some rest ∧
      (∀ b ∈ tmpAccs, b.coins.AmountOf denom ≤ a.coins.AmountOf denom) ∧
      (∀ j b, j < i → tmpAccs[j]? = some b →
        b.coins.AmountOf denom < a.coins.AmountOf denom) ∧
      tmpAccs.Perm (a :: rest) := by
  obtain ⟨a, h1, h2, h3, h4, h5⟩ :=
    scanTop_spec denom tmpAccs [] (0, 0, "") (Or.inl rfl) (by simpa using hne)
  simp only [List.nil_append, List.length_nil] at h1 h2 h3 h4 h5
  obtain ⟨rest, hr, hp⟩ := removeSwapLast_perm tmpAccs _ a h1
  refine ⟨_, a, rest, h1, ?_, hr, ?_, ?_, hp⟩
  · unfold selectRound
    simp only [hr, h2, h3]
  · intro b hb
    rw [← h2]
    exact h4 b hb
  · intro j b hj hb
    rw [← h2]
    exact h5 j b hj hb

theorem selectLoop_succ (denom : Denom) (rounds : Nat) (tmpAccs : List Account)
    (out : List ExportAccount) (entry : ExportAccount) (rest : List Account)
    (h : selectRound denom tmpAccs = some (entry, rest)) :
    selectLoop denom (rounds + 1) tmpAccs out = selectLoop denom rounds rest (out ++ [entry]) := by
  simp only [selectLoop, h]

/-- The rounds on a pool given by positions: the positions selected, in order, and the
positions left. -/
theorem selectLoop_spec (denom : Denom) (g : Nat → Account) :
    ∀ (k : Nat) (p : List Nat) (out : List ExportAccount), k ≤ p.length →
      ∃ s rem, s.length = k ∧ p.Perm (s ++ rem) ∧
        selectLoop denom k (p.map g) out =
          some (out ++ s.map
            (fun i => NewExportAccount (g i).address ((g i).coins.AmountOf denom))) ∧
        (s.map (fun i => (g i).coins.AmountOf denom)).Sorted (· ≥ ·) ∧
        (∀ i ∈ s, ∀ j ∈ rem,
          (g j).coins.AmountOf denom ≤ (g i).coins.AmountOf denom) := by
  intro k
  induction k with
  | zero =>
    intro p out _
    exact ⟨[], p, rfl, by simp, by simp [selectLoop], by simp, by simp⟩
  | succ k ih =>
    intro p out hk
    have hne : p.map g ≠ [] := by
      intro h
      rw [List.map_eq_nil_iff] at h
      subst h
      simp at hk
    obtain ⟨i, a, rest, h1, h2, h3, h4, _, _⟩ := selectRound_spec denom (p.map g) hne
    rw [List.getElem?_map] at h1
    obtain ⟨pi, hpi, hg⟩ := Option.map_eq_some'.1 h1
    obtain ⟨p1, hp1, hperm⟩ := removeSwapLast_perm p i pi hpi
    have hrest : rest = p1.map g := by
      rw [removeSwapLast_map, hp1] at h3
      simpa using h3.symm
    subst hrest
    have hlen : k ≤ p1.length := by
      have := hperm.length_eq
      simp at this
      omega
    obtain ⟨s, rem, hs, hp, hloop, hsorted, hdom⟩ := ih p1 (out ++ [NewExportAccount a.address
      (a.coins.AmountOf denom)]) hlen
    have hmem : ∀ q ∈ p, (g q).coins.AmountOf denom ≤ (g pi).coins.AmountOf denom := by
      intro q hq
      rw [hg]
      exact h4 (g q) (List.mem_map_of_mem g hq)
    have hsub : ∀ q ∈ s ++ rem, q ∈ p := by
      intro q hq
      exact hperm.mem_iff.2 (List.mem_cons_of_mem _ (hp.mem_iff.2 hq))
    refine ⟨pi :: s, rem, by simp [hs], ?_, ?_, ?_, ?_⟩
    · exact hperm.trans (List.Perm.cons pi hp)
    · rw [selectLoop_succ denom k (p.map g) out _ _ h2, hloop, ← hg]
      simp
    · simp only [List.map_cons, List.sorted_cons]
      refine ⟨?_, hsorted⟩
      intro b hb
      obtain ⟨q, hq, rfl⟩ := List.mem_map.1 hb
      exact hmem q (hsub q (List.mem_append_left _ hq))
    · intro i' hi' j hj
      rcases List.mem_cons.1 hi' with e | hi'
      · rw [e]
        exact hmem j (hsub j (List.mem_append_right _ hj))
      · exact hdom i' hi' j hj

theorem range_map_getD (accs : List Account) :
    (List.range accs.length).map (fun i => accs.getD i default) = accs := by
  induction accs with
  | nil => rfl
  | cons a as ih =>
    rw [List.length_cons, List.range_succ_eq_map, List.map_cons, List.map_map]
    simp only [List.getD_cons_zero]
    congr 1

theorem maxEntries_eq (accs : List Account) : maxEntries accs = min 1000 accs.length := by
  unfold maxEntries
  split_ifs <;> omega

/-- The ranking in terms of positions of the account list. -/
theorem ranking_spec (accs : List Account) (denom : Denom) :
    ∃ idxs rem : List Nat, idxs.length = min 1000 accs.length ∧
      (List.range accs.length).Perm (idxs ++ rem) ∧
      ranking accs denom = some (idxs.map (fun i =>
        NewExportAccount (accs.getD i default).address
          ((accs.getD i default).coins.AmountOf denom))) ∧
      (idxs.map (fun i => (accs.getD i default).coins.AmountOf denom)).Sorted (· ≥ ·) ∧
      (∀ i ∈ idxs, ∀ j ∈ rem, (accs.getD j default).coins.AmountOf denom
        ≤ (accs.getD i default).coins.AmountOf denom) := by
  have hk : maxEntries accs ≤ (List.range accs.length).length := by
    rw [maxEntries_eq, List.length_range]
    exact min_le_right _ _
  obtain ⟨s, rem, h1, h2, h3, h4, h5⟩ :=
    selectLoop_spec denom (fun i => accs.getD i default) (maxEntries accs)
      (List.range accs.length) [] hk
  rw [range_map_getD] at h3
  refine ⟨s, rem, by rw [h1, maxEntries_eq], h2, ?_, h4, h5⟩
  unfold ranking
  rw [h3]
  simp

end app

namespace app

open sdk

theorem selectLoop_extends (denom : Denom) (k : Nat) (pool : List Account)
    (out : List ExportAccount) (hk : k ≤ pool.length) :
    ∃ tail, selectLoop denom k pool out = some (out ++ tail) ∧ tail.length = k := by
  obtain ⟨s, _, h1, _, h3, _, _⟩ :=
    selectLoop_spec denom (fun i => pool.getD i default) k (List.range pool.length) out
      (by rw [List.length_range]; exact hk)
  rw [range_map_getD] at h3
  exact ⟨_, h3, by rw [List.length_map, h1]⟩

/-- The entry a round appends is that of the earliest account of the pool of that round
among those holding the greatest amount. -/
theorem selectLoop_round (denom : Denom) :
    ∀ (round k : Nat) (pool : List Account) (out : List ExportAccount),
      round < k → k ≤ pool.length →
      ∃ (poolr : List Account) (i : Nat) (acc : Account) (r : List ExportAccount),
        poolAfter denom round pool = some poolr ∧ poolr[i]? = some acc ∧
        selectLoop denom k pool out = some r ∧
        r[out.length + round]? =
          some (NewExportAccount acc.address (acc.coins.AmountOf denom)) ∧
        (∀ b ∈ poolr, b.coins.AmountOf denom ≤ acc.coins.AmountOf denom) ∧
        (∀ j b, j < i → poolr[j]? = some b →
          b.coins.AmountOf denom < acc.coins.AmountOf denom) := by
  intro round
  induction round with
  | zero =>
    intro k pool out hk hle
    obtain ⟨k', rfl⟩ : ∃ k', k = k' + 1 := ⟨k - 1, by omega⟩
    have hne : pool ≠ [] := by
      intro h
      subst h
      simp at hle
    obtain ⟨i, a, rest, h1, h2, _, h4, h5, hperm⟩ := selectRound_spec denom pool hne
    have hlen : k' ≤ rest.length := by
      have := hperm.length_eq
      simp at this
      omega
    obtain ⟨tail, ht, _⟩ := selectLoop_extends denom k' rest
      (out ++ [NewExportAccount a.address (a.coins.AmountOf denom)]) hlen
    refine ⟨pool, i, a, out ++ [NewExportAccount a.address (a.coins.AmountOf denom)] ++ tail,
      rfl, h1, ?_, ?_, h4, h5⟩
    · rw [selectLoop_succ denom k' pool out _ _ h2]
      exact ht
    · rw [Nat.add_zero, List.getElem?_append_left (by simp)]
      exact List.getElem?_concat_length out _
  | succ round ih =>
    intro k pool out hk hle
    obtain ⟨k', rfl⟩ : ∃ k', k = k' + 1 := ⟨k - 1, by omega⟩
    have hne : pool ≠ [] := by
      intro h
      subst h
      simp at hle
    obtain ⟨_, a, rest, _, h2, _, _, _, hperm⟩ := selectRound_spec denom pool hne
    have hlen : k' ≤ rest.length := by
      have := hperm.length_eq
      simp at this
      omega
    obtain ⟨poolr, i, acc, r, g1, g2, g3, g4, g5, g6⟩ :=
      ih k' rest (out ++ [NewExportAccount a.address (a.coins.AmountOf denom)])
        (by omega) hlen
    refine ⟨poolr, i, acc, r, ?_, g2, ?_, ?_, g5, g6⟩
    · simp only [poolAfter, h2]
      exact g1
    · rw [selectLoop_succ denom k' pool out _ _ h2]
      exact g3
    · have e : (out ++ [NewExportAccount a.address (a.coins.AmountOf denom)]).length + round
          = out.length + (round + 1) := by
        rw [List.length_append, List.length_singleton]
        omega
      rw [← e]
      exact g4

/-- C2: the ranking of a denomination is a selection of the top accounts. It has an entry
for each of `min(1000, n)` distinct positions of the account list, whose address is the
address of the account at that position and whose amount is the amount that account
holds in the denomination; no account at a position left out holds more than the amount
of any entry; and the amounts of the entries are the first `min(1000, n)` amounts of the
list sorted in descending order. -/
theorem ranking_selects_top (accs : List Account) (denom : Denom) :
    ∃ (r : List ExportAccount) (idxs : List Nat),
      ranking accs denom = some r ∧
      idxs.Nodup ∧ idxs.length = min 1000 accs.length ∧ r.length = idxs.length ∧
      (∀ (k i : Nat), idxs[k]? = some i →
        ∃ (acc : Account) (entry : ExportAccount), accs[i]? = some acc ∧ r[k]? = some entry ∧
          entry.address = acc.address ∧ entry.amount = acc.coins.AmountOf denom) ∧
      (∀ entry ∈ r, ∀ (j : Nat) (acc : Account), accs[j]? = some acc → j ∉ idxs →
        acc.coins.AmountOf denom ≤ entry.amount) ∧
      r.map (fun entry => entry.amount) =
        ((accs.map (fun acc => acc.coins.AmountOf denom)).insertionSort (· ≥ ·)).take
          (min 1000 accs.length) := by
  obtain ⟨idxs, rem, h1, h2, h3, h4, h5⟩ := ranking_spec accs denom
  have hnodup : (idxs ++ rem).Nodup := h2.nodup_iff.1 (List.nodup_range _)
  have hmem : ∀ j, j ∈ idxs ++ rem ↔ j < accs.length := by
    intro j
    rw [← h2.mem_iff, List.mem_range]
  have hamounts : (idxs.map (fun i =>
      NewExportAccount (accs.getD i default).address
        ((accs.getD i default).coins.AmountOf denom))).map (fun entry => entry.amount)
      = idxs.map (fun i => (accs.getD i default).coins.AmountOf denom) := by
    rw [List.map_map]
    rfl
  refine ⟨_, idxs, h3, hnodup.of_append_left, h1, by rw [List.length_map], ?_, ?_, ?_⟩
  · intro k i hk
    have hi : i < accs.length := (hmem i).1 (List.mem_append_left _ (List.getElem?_mem hk))
    refine ⟨accs[i], ⟨accs[i].address, accs[i].coins.AmountOf denom⟩,
      List.getElem?_eq_getElem hi, ?_, rfl, rfl⟩
    rw [List.getElem?_map, hk]
    simp only [Option.map_some', List.getD_eq_getElem?_getD, List.getElem?_eq_getElem hi,
      Option.getD_some, NewExportAccount]
  · intro entry he j acc hj hnot
    obtain ⟨i, hi, rfl⟩ := List.mem_map.1 he
    obtain ⟨hjlt, hje⟩ := List.getElem?_eq_some.1 hj
    have hacc : accs.getD j default = acc := by
      rw [List.getD_eq_getElem?_getD, hj]
      rfl
    rcases List.mem_append.1 ((hmem j).2 hjlt) with h | h
    · exact absurd h hnot
    · have := h5 i hi j h
      rw [hacc] at this
      exact this
  · rw [hamounts]
    have hall : ((idxs ++ rem).map (fun i => (accs.getD i default).coins.AmountOf denom)).Perm
        (accs.map (fun acc => acc.coins.AmountOf denom)) := by
      have e : (List.range accs.length).map
          (fun i => (accs.getD i default).coins.AmountOf denom)
          = accs.map (fun acc => acc.coins.AmountOf denom) := by
        conv_rhs => rw [← range_map_getD accs]
        rw [List.map_map]
        rfl
      rw [← e]
      exact (h2.map _).symm
    have hsorted : (idxs.map (fun i => (accs.getD i default).coins.AmountOf denom) ++
        (rem.map (fun i => (accs.getD i default).coins.AmountOf denom)).insertionSort
          (· ≥ ·)).Sorted (· ≥ ·) := by
      unfold List.Sorted
      rw [List.pairwise_append]
      refine ⟨h4, List.sorted_insertionSort _ _, ?_⟩
      intro a ha b hb
      rw [(List.perm_insertionSort _ _).mem_iff] at hb
      obtain ⟨i, hi, rfl⟩ := List.mem_map.1 ha
      obtain ⟨j, hj, rfl⟩ := List.mem_map.1 hb
      exact h5 i hi j hj
    have hperm : (idxs.map (fun i => (accs.getD i default).coins.AmountOf denom) ++
        (rem.map (fun i => (accs.getD i default).coins.AmountOf denom)).insertionSort
          (· ≥ ·)).Perm
        ((accs.map (fun acc => acc.coins.AmountOf denom)).insertionSort (· ≥ ·)) := by
      refine ((List.Perm.append_left _ (List.perm_insertionSort _ _)).trans ?_).trans
        (List.perm_insertionSort _ _).symm
      rw [← List.map_append]
      exact hall
    have heq := List.eq_of_perm_of_sorted hperm hsorted (List.sorted_insertionSort _ _)
    rw [← heq]
    exact (List.take_left' (by rw [List.length_map, h1])).symm

/-- C3: the entries of the ranking are in non-increasing order of amount; each entry's
amount is at least the amount of the entry after it. -/
theorem ranking_sorted (accs : List Account) (denom : Denom) :
    ∃ r, ranking accs denom = some r ∧
      r.Sorted (fun a b => a.amount ≥ b.amount) ∧
      ∀ k a b, r[k]? = some a → r[k + 1]? = some b → b.amount ≤ a.amount := by
  obtain ⟨idxs, _, _, _, h3, h4, _⟩ := ranking_spec accs denom
  have hs : (idxs.map (fun i =>
      NewExportAccount (accs.getD i default).address
        ((accs.getD i default).coins.AmountOf denom))).Sorted
      (fun a b => a.amount ≥ b.amount) := by
    unfold List.Sorted at h4 ⊢
    rw [List.pairwise_map] at h4 ⊢
    exact h4
  refine ⟨_, h3, hs, ?_⟩
  intro k a b ha hb
  obtain ⟨hk, ea⟩ := List.getElem?_eq_some.1 ha
  obtain ⟨hk1, eb⟩ := List.getElem?_eq_some.1 hb
  have := List.pairwise_iff_getElem.1 hs k (k + 1) hk hk1 (Nat.lt_succ_self k)
  rw [ea, eb] at this
  exact this

/-- C4: the ranking of any denomination has exactly `min(1000, n)` entries, where `n` is
the length of the account list; for an empty list it is empty. -/
theorem ranking_length (accs : List Account) (denom : Denom) :
    ∃ r, ranking accs denom = some r ∧ r.length = min 1000 accs.length ∧
      (accs = [] → r = []) := by
  obtain ⟨idxs, _, h1, _, h3, _, _⟩ := ranking_spec accs denom
  refine ⟨_, h3, by rw [List.length_map, h1], ?_⟩
  intro h
  subst h
  have : idxs = [] := List.length_eq_zero.1 (by simpa using h1)
  subst this
  rfl

/-- C5 (as the code has it): in every round the entry appended to the ranking is that
of the earliest account, in the order of the pool of that round, among the accounts of
the pool holding the greatest amount; before the first round the pool is the account
list. Of two accounts with equal amounts the one earlier in the pool of the round that
takes the first of them is the one taken. -/
theorem ranking_round_selects_first_max (accs : List Account) (denom : Denom) (round : Nat)
    (h : round < maxEntries accs) :
    poolAfter denom 0 accs = some accs ∧
    ∃ (pool : List Account) (i : Nat) (acc : Account) (r : List ExportAccount),
      poolAfter denom round accs = some pool ∧ pool[i]? = some acc ∧
      ranking accs denom = some r ∧
      r[round]? = some (NewExportAccount acc.address (acc.coins.AmountOf denom)) ∧
      (∀ b ∈ pool, b.coins.AmountOf denom ≤ acc.coins.AmountOf denom) ∧
      (∀ j b, j < i → pool[j]? = some b →
        b.coins.AmountOf denom < acc.coins.AmountOf denom) := by
  refine ⟨rfl, ?_⟩
  have hle : maxEntries accs ≤ accs.length := by
    rw [maxEntries_eq]
    exact min_le_right _ _
  obtain ⟨pool, i, acc, r, g1, g2, g3, g4, g5, g6⟩ :=
    selectLoop_round denom round (maxEntries accs) accs [] h hle
  refine ⟨pool, i, acc, r, g1, g2, g3, ?_, g5, g6⟩
  simpa using g4

/-- The witness of C5: the second round on A, B, C holding 9, 5, 5 runs on the pool
C, B and takes C. -/
theorem ranking_round_selects_first_max_witness :
    1 < maxEntries tieAccounts ∧
    poolAfter denomA 0 tieAccounts = some tieAccounts ∧
    ∃ (pool : List Account) (i : Nat) (acc : Account) (r : List ExportAccount),
      poolAfter denomA 1 tieAccounts = some pool ∧ pool[i]? = some acc ∧
      ranking tieAccounts denomA = some r ∧
      r[1]? = some (NewExportAccount acc.address (acc.coins.AmountOf denomA)) ∧
      (∀ b ∈ pool, b.coins.AmountOf denomA ≤ acc.coins.AmountOf denomA) ∧
      (∀ j b, j < i → pool[j]? = some b →
        b.coins.AmountOf denomA < acc.coins.AmountOf denomA) :=
  ⟨by decide, ranking_round_selects_first_max tieAccounts denomA 1 (by decide)⟩

/-- C5 as stated fails: of the accounts A, B, C holding 9, 5 and 5, in that order, the
ranking lists C before B, though B comes before C in the account list and both hold 5:
the first round moves C, the last of the pool, into the slot of A. -/
theorem ranking_tie_not_in_input_order :
    tieAccounts.map (fun acc => (acc.address, acc.coins.AmountOf denomA))
      = [("A", 9), ("B", 5), ("C", 5)] ∧
    (poolAfter denomA 1 tieAccounts).map (fun pool => pool.map (fun acc => acc.address))
      = some ["C", "B"] ∧
    ranking tieAccounts denomA = some [⟨"A", 9⟩, ⟨"C", 5⟩, ⟨"B", 5⟩] ∧
    ∃ (i j ri rj : Nat) (a b : Account) (r : List ExportAccount),
      ranking tieAccounts denomA = some r ∧
      tieAccounts[i]? = some a ∧ tieAccounts[j]? = some b ∧ i < j ∧
      a.coins.AmountOf denomA = b.coins.AmountOf denomA ∧
      r[ri]? = some (NewExportAccount a.address (a.coins.AmountOf denomA)) ∧
      r[rj]? = some (NewExportAccount b.address (b.coins.AmountOf denomA)) ∧
      rj < ri :=
  ⟨by decide, by decide, by decide,
    1, 2, 2, 1, ⟨"B", [⟨denomA, 5⟩], none⟩, ⟨"C", [⟨denomA, 5⟩], none⟩,
    [⟨"A", 9⟩, ⟨"C", 5⟩, ⟨"B", 5⟩], by decide, rfl, rfl, by decide, by decide, by decide,
    by decide, by decide⟩

end app

namespace app

open sdk

/-! ## When the aggregation pass returns -/

theorem stakingAmtFrom_returns (rates : List (ValAddress × Dec)) (delegations : List Delegation) :
    ∀ s : Int, 0 ≤ s →
      (∀ d ∈ delegations, ∃ rate, rates.lookup d.validatorAddr = some rate ∧
        0 ≤ rate.int ∧
        rate.int ≤ 1267650600228229401496703205376000000000000000000000000000000000000 ∧
        0 ≤ d.shares.int ∧ d.shares.int < 2 ^ 150) →
      ∃ r, stakingAmtFrom rates s delegations = some r ∧ 0 ≤ r := by
  induction delegations with
  | nil =>
    intro s hs _
    exact ⟨s, rfl, hs⟩
  | cons d ds ih =>
    intro s hs h
    obtain ⟨rate, h1, h2, h3, h4, h5⟩ := h d (List.mem_cons_self _ _)
    obtain ⟨amt, hamt, hnn⟩ := delegationAmt_returns h1 h4 h5 h2 h3
    rw [stakingAmtFrom_cons hamt]
    exact ih _ (add_nonneg hs hnn) (fun e he => h e (List.mem_cons_of_mem _ he))

theorem addStakingCoins_returns (bondDenom : Denom) (coins : Coins) (stakingAmt unbondingAmt : Int)
    (h : 0 ≤ stakingAmt + unbondingAmt) :
    ∃ eff, addStakingCoins bondDenom coins stakingAmt unbondingAmt = some eff := by
  unfold addStakingCoins NewCoin
  rw [if_neg (not_lt.2 h)]
  by_cases hz : stakingAmt + unbondingAmt = 0
  · have e : NewCoins [⟨bondDenom, stakingAmt + unbondingAmt⟩] = some [] := by
      simp [NewCoins, removeZeroCoins, hz]
    simp only [e]
    exact ⟨_, rfl⟩
  · have hv : Coins.IsValid [⟨bondDenom, stakingAmt + unbondingAmt⟩] := by
      refine ⟨by simp, ?_⟩
      intro c hc
      rw [List.mem_singleton] at hc
      subst hc
      exact lt_of_le_of_ne h (Ne.symm hz)
    have e : NewCoins [⟨bondDenom, stakingAmt + unbondingAmt⟩]
        = some [⟨bondDenom, stakingAmt + unbondingAmt⟩] := by
      simp [NewCoins, removeZeroCoins, hz, Coins.Sort, hv]
    simp only [e]
    exact ⟨_, rfl⟩

theorem effectiveCoins_returns (ledger : Ledger) (rates : List (ValAddress × Dec)) (acc : Account)
    (h : ∀ d ∈ ledger.delegations acc.address, ∃ rate, rates.lookup d.validatorAddr = some rate ∧
      0 ≤ rate.int ∧
      rate.int ≤ 1267650600228229401496703205376000000000000000000000000000000000000 ∧
      0 ≤ d.shares.int ∧ d.shares.int < 2 ^ 150) :
    ∃ eff, effectiveCoins ledger rates acc = some eff := by
  obtain ⟨r, h1, h2⟩ := stakingAmtFrom_returns rates (ledger.delegations acc.address) 0 le_rfl h
  unfold effectiveCoins stakingAmt
  simp only [h1]
  apply addStakingCoins_returns
  rw [unbondingAmt_eq_zero]
  simpa using h2

theorem visitAccounts_returns (ledger : Ledger) (rates : List (ValAddress × Dec)) (minC : Coins)
    (accounts : List Account) :
    ∀ state,
      (∀ acc ∈ accounts, ∀ d ∈ ledger.delegations acc.address,
        ∃ rate, rates.lookup d.validatorAddr = some rate ∧ 0 ≤ rate.int ∧
          rate.int ≤ 1267650600228229401496703205376000000000000000000000000000000000000 ∧
          0 ≤ d.shares.int ∧ d.shares.int < 2 ^ 150) →
      ∃ res, visitAccounts ledger rates minC state accounts = some res := by
  induction accounts with
  | nil =>
    intro state _
    exact ⟨state, rfl⟩
  | cons acc rest ih =>
    intro state h
    obtain ⟨eff, heff⟩ := effectiveCoins_returns ledger rates acc (h acc (List.mem_cons_self _ _))
    have hstep : ∃ next, visitAccount ledger rates minC state acc = some next := by
      unfold visitAccount
      simp only [heff]
      split_ifs
      · exact ⟨_, rfl⟩
      · exact ⟨_, rfl⟩
    obtain ⟨next, hnext⟩ := hstep
    simp only [visitAccounts, hnext]
    exact ih next (fun a ha => h a (List.mem_cons_of_mem _ ha))

/-- The aggregation pass, with its sums taken to stay in range, returns on every ledger
in which the validators have non-negative bonded tokens below `2^100` and positive
delegator shares and every delegation has non-negative shares below `2^150` units of the
18th digit and references one of the validators. -/
theorem trackingAll_returns (ledger : Ledger)
    (hv : ∀ v ∈ ledger.validators,
      0 ≤ v.bondedTokens ∧ v.bondedTokens < 2 ^ 100 ∧ 0 < v.delegatorShares.int)
    (hd : ∀ acc ∈ ledger.accounts, ∀ d ∈ ledger.delegations acc.address,
      d.validatorAddr ∈ ledger.validators.map Validator.operator ∧
        0 ≤ d.shares.int ∧ d.shares.int < 2 ^ 150) :
    ∃ accs vestingCoins, trackingAll ledger = some (accs, vestingCoins) := by
  obtain ⟨rates, h1, h2, h3⟩ :=
    tokenShareRates_spec ledger.validators (fun v hv' => by
      obtain ⟨rate, hq, _⟩ := Quo_returns v.bondedTokens v.delegatorShares
        (hv v hv').1 (hv v hv').2.1 (hv v hv').2.2
      exact ⟨rate, hq⟩)
  have hmin : minCoins ledger.whitelist =
      some (Coins.Sort (ledger.whitelist.map (fun d => ⟨d, 1 * MicroUnit⟩))) :=
    floorCoins_spec (fun _ => 1 * MicroUnit) ledger.whitelist
      (fun _ _ => (by decide : (0 : Int) ≤ 1 * MicroUnit))
  have hrates : ∀ acc ∈ ledger.accounts, ∀ d ∈ ledger.delegations acc.address,
      ∃ rate, rates.lookup d.validatorAddr = some rate ∧ 0 ≤ rate.int ∧
        rate.int ≤ 1267650600228229401496703205376000000000000000000000000000000000000 ∧
        0 ≤ d.shares.int ∧ d.shares.int < 2 ^ 150 := by
    intro acc hacc d hdel
    obtain ⟨hop, hs, hs2⟩ := hd acc hacc d hdel
    obtain ⟨rate, hrate⟩ := Option.isSome_iff_exists.1 (h3 _ hop)
    obtain ⟨w, hw, _, hq⟩ := h2 _ rate hrate
    obtain ⟨rate2, hq2, hle⟩ := Quo_returns w.bondedTokens w.delegatorShares
      (hv w hw).1 (hv w hw).2.1 (hv w hw).2.2
    rw [hq] at hq2
    simp only [Option.some.injEq] at hq2
    subst hq2
    exact ⟨rate, hrate, (Quo_bounds w.bondedTokens w.delegatorShares rate (hv w hw).1
      (hv w hw).2.2 hq).1, hle, hs, hs2⟩
  obtain ⟨res, hres⟩ := visitAccounts_returns ledger rates _ ledger.accounts ([], []) hrates
  refine ⟨res.1, res.2, ?_⟩
  unfold trackingAll
  simp only [h1, hmin]
  exact hres

end app

namespace app

open sdk

/-! ## The scenario of the selection, and the exports -/

/-- C11: the selection loop run for 3 rounds on four candidates holding 5, 5, 9 and 1,
in that order, gives exactly three entries: the 9, then the first 5, then the second 5;
the candidate holding 1 is not among them. -/
theorem selectLoop_three_of_four (denom : Denom) (a b c d : Account)
    (ha : a.coins.AmountOf denom = 5) (hb : b.coins.AmountOf denom = 5)
    (hc : c.coins.AmountOf denom = 9) (hd : d.coins.AmountOf denom = 1) :
    selectLoop denom 3 [a, b, c, d] [] =
      some [NewExportAccount c.address 9, NewExportAccount a.address 5,
        NewExportAccount b.address 5] := by
  simp [selectLoop, selectRound, scanTop, removeSwapLast, ha, hb, hc, hd]

/-- The witness of C11: the candidates a, b, c, d of `fourCandidates`. -/
theorem selectLoop_three_of_four_witness :
    fourCandidates.map (fun acc => acc.coins.AmountOf denomA) = [5, 5, 9, 1] ∧
    selectLoop denomA 3 fourCandidates [] = some [⟨"c", 9⟩, ⟨"a", 5⟩, ⟨"b", 5⟩] :=
  ⟨by decide,
    selectLoop_three_of_four denomA ⟨"a", [⟨denomA, 5⟩], none⟩ ⟨"b", [⟨denomA, 5⟩], none⟩
      ⟨"c", [⟨denomA, 9⟩], none⟩ ⟨"d", [⟨denomA, 1⟩], none⟩ (by decide) (by decide)
      (by decide) (by decide)⟩


end app

namespace sdk

/-- Two valid coin sets that hold the same amount in every denomination are equal. -/
theorem IsValid_ext : ∀ (a b : Coins), a.IsValid → b.IsValid →
    (∀ d, a.AmountOf d = b.AmountOf d) → a = b := by
  have hnil : ∀ (y : Coin) (bs : Coins), Coins.IsValid (y :: bs) →
      ¬ (∀ d, Coins.AmountOf [] d = Coins.AmountOf (y :: bs) d) := by
    intro y bs hb h
    have h1 := h y.denom
    rw [AmountOf_cons, if_pos rfl] at h1
    have h2 := hb.2 y (List.mem_cons_self _ _)
    simp only [Coins.AmountOf] at h1
    omega
  have hhead : ∀ (x y : Coin) (as bs : Coins), Coins.IsValid (x :: as) →
      Coins.IsValid (y :: bs) →
      (∀ d, Coins.AmountOf (x :: as) d = Coins.AmountOf (y :: bs) d) →
      y.denom ≤ x.denom := by
    intro x y as bs ha hb h
    have h1 := h x.denom
    rw [AmountOf_cons, if_pos rfl] at h1
    have hx := ha.2 x (List.mem_cons_self _ _)
    have hne : Coins.AmountOf (y :: bs) x.denom ≠ 0 := by omega
    obtain ⟨c, hc, e, _⟩ := exists_mem_of_AmountOf_ne_zero hne
    have hs := hb.1
    simp only [List.map_cons, List.sorted_cons] at hs
    rcases List.mem_cons.1 hc with e2 | hm
    · rw [← e, e2]
    · rw [← e]
      exact le_of_lt (hs.1 _ (List.mem_map_of_mem _ hm))
  intro a
  induction a with
  | nil =>
    intro b _ hb h
    cases b with
    | nil => rfl
    | cons y bs => exact absurd h (hnil y bs hb)
  | cons x as ih =>
    intro b ha hb h
    cases b with
    | nil => exact absurd (fun d => (h d).symm) (hnil x as ha)
    | cons y bs =>
      have hd : x.denom = y.denom :=
        le_antisymm (hhead y x bs as hb ha (fun d => (h d).symm)) (hhead x y as bs ha hb h)
      have hamt : x.amount = y.amount := by
        have h1 := h x.denom
        rw [AmountOf_cons, AmountOf_cons, if_pos rfl, if_pos hd.symm] at h1
        exact h1
      have hxy : x = y := by
        cases x
        cases y
        simp only at hd hamt
        rw [hd, hamt]
      subst hxy
      have has := ha.1
      have hbs := hb.1
      simp only [List.map_cons, List.sorted_cons] at has hbs
      have hva : Coins.IsValid as := ⟨has.2, fun c hc => ha.2 c (List.mem_cons_of_mem _ hc)⟩
      have hvb : Coins.IsValid bs := ⟨hbs.2, fun c hc => hb.2 c (List.mem_cons_of_mem _ hc)⟩
      have htail : ∀ d, Coins.AmountOf as d = Coins.AmountOf bs d := by
        intro d
        by_cases e : x.denom = d
        · rw [AmountOf_eq_zero_of_not_mem, AmountOf_eq_zero_of_not_mem]
          · intro hm
            exact absurd (hbs.1 _ hm) (by rw [e]; exact lt_irrefl _)
          · intro hm
            exact absurd (has.1 _ hm) (by rw [e]; exact lt_irrefl _)
        · have h1 := h d
          rw [AmountOf_cons, AmountOf_cons, if_neg e, if_neg e] at h1
          exact h1
      rw [ih bs hva hvb htail]

end sdk

namespace app

open sdk

/-! ## The order of the accounts -/

/-- The accounts kept by the pass are the accounts it had and, in the order of the
visits, the accounts that reach the threshold; every account visited got its coins. -/
theorem visitAccounts_kept (ledger : Ledger) (rates : List (ValAddress × Dec)) (minC : Coins)
    (accounts : List Account) :
    ∀ state res, visitAccounts ledger rates minC state accounts = some res →
      res.1 = state.1 ++ accounts.filterMap (fun acc =>
        match effectiveCoins ledger rates acc with
        | some coins =>
          if coins.IsAnyGTE minC then some { acc with coins := coins } else none
        | none => none) ∧
      ∀ acc ∈ accounts, (effectiveCoins ledger rates acc).isSome := by
  induction accounts with
  | nil =>
    intro state res h
    simp only [visitAccounts, Option.some.injEq] at h
    subst h
    simp
  | cons acc rest ih =>
    intro state res h
    simp only [visitAccounts] at h
    cases hstep : visitAccount ledger rates minC state acc with
    | none =>
      rw [hstep] at h
      exact absurd h (by simp)
    | some next =>
      rw [hstep] at h
      simp only at h
      obtain ⟨h1, h2⟩ := ih next res h
      unfold visitAccount at hstep
      cases heff : effectiveCoins ledger rates acc with
      | none =>
        rw [heff] at hstep
        exact absurd hstep (by simp)
      | some coins =>
        rw [heff] at hstep
        simp only at hstep
        refine ⟨?_, ?_⟩
        · rw [h1, List.filterMap_cons]
          simp only [heff]
          by_cases hk : coins.IsAnyGTE minC = true
          · rw [if_pos hk] at hstep
            simp only [Option.some.injEq] at hstep
            rw [← hstep]
            simp [hk]
          · rw [if_neg hk] at hstep
            simp only [Option.some.injEq] at hstep
            rw [← hstep]
            simp [hk]
        · intro a ha
          rcases List.mem_cons.1 ha with e | ha
          · rw [e, heff]
            rfl
          · exact h2 a ha

theorem visitAccounts_isSome (ledger : Ledger) (rates : List (ValAddress × Dec)) (minC : Coins)
    (accounts : List Account) :
    ∀ state, (∀ acc ∈ accounts, (effectiveCoins ledger rates acc).isSome) →
      ∃ res, visitAccounts ledger rates minC state accounts = some res := by
  induction accounts with
  | nil =>
    intro state _
    exact ⟨state, rfl⟩
  | cons acc rest ih =>
    intro state h
    obtain ⟨coins, heff⟩ := Option.isSome_iff_exists.1 (h acc (List.mem_cons_self _ _))
    have hstep : ∃ next, visitAccount ledger rates minC state acc = some next := by
      unfold visitAccount
      simp only [heff]
      split_ifs
      · exact ⟨_, rfl⟩
      · exact ⟨_, rfl⟩
    obtain ⟨next, hnext⟩ := hstep
    simp only [visitAccounts, hnext]
    exact ih next (fun a ha => h a (List.mem_cons_of_mem _ ha))

theorem visitAccounts_accounts_irrelevant (ledger : Ledger) (accounts2 : List Account)
    (rates : List (ValAddress × Dec)) (minC : Coins) (accounts : List Account) :
    ∀ state, visitAccounts { ledger with accounts := accounts2 } rates minC state accounts =
      visitAccounts ledger rates minC state accounts := by
  induction accounts with
  | nil =>
    intro state
    rfl
  | cons acc rest ih =>
    intro state
    have e : visitAccount { ledger with accounts := accounts2 } rates minC state acc =
        visitAccount ledger rates minC state acc := rfl
    simp only [visitAccounts, e]
    cases visitAccount ledger rates minC state acc with
    | none => rfl
    | some next => exact ih next

/-- C12: visiting the same accounts in another order gives the same vesting total and
keeps the same accounts: when the pass returns on one ordering it returns on the other,
with the same total and with a list of accounts that is a rearrangement of the first. -/
theorem trackingAll_order_independent (ledger : Ledger) (accounts2 accs : List Account)
    (vestingCoins : Coins)
    (hperm : ledger.accounts.Perm accounts2)
    (hvalid : ∀ f ∈ ledger.accounts.filterMap (fun acc => acc.vesting),
      (f ledger.blockTime).IsValid)
    (h : trackingAll ledger = some (accs, vestingCoins)) :
    ∃ accs2, trackingAll { ledger with accounts := accounts2 } = some (accs2, vestingCoins) ∧
      accs.Perm accs2 := by
  unfold trackingAll at h ⊢
  cases hr : tokenShareRates ledger.validators with
  | none =>
    rw [hr] at h
    exact absurd h (by simp)
  | some rates =>
    cases hm : minCoins ledger.whitelist with
    | none =>
      rw [hr, hm] at h
      exact absurd h (by simp)
    | some minC =>
      rw [hr, hm] at h
      simp only at h
      simp only [hr, hm]
      rw [visitAccounts_accounts_irrelevant]
      obtain ⟨k1, k2⟩ := visitAccounts_kept ledger rates minC ledger.accounts _ _ h
      obtain ⟨res2, h2⟩ := visitAccounts_isSome ledger rates minC accounts2 ([], [])
        (fun acc hacc => k2 acc (hperm.mem_iff.2 hacc))
      obtain ⟨m1, _⟩ := visitAccounts_kept ledger rates minC accounts2 _ _ h2
      have hv1 : ∀ acc ∈ ledger.accounts, ∀ f, acc.vesting = some f →
          (f ledger.blockTime).IsValid := by
        intro acc hacc f hf
        exact hvalid f (List.mem_filterMap.2 ⟨acc, hacc, hf⟩)
      have hv2 : ∀ acc ∈ accounts2, ∀ f, acc.vesting = some f →
          (f ledger.blockTime).IsValid :=
        fun acc hacc => hv1 acc (hperm.mem_iff.2 hacc)
      have hnil : Coins.IsValid [] := by decide
      obtain ⟨v1, s1⟩ := visitAccounts_vesting ledger rates minC ledger.accounts ([], [])
        (accs, vestingCoins) h hv1 hnil
      obtain ⟨v2, s2⟩ := visitAccounts_vesting ledger rates minC accounts2 ([], []) res2 h2
        hv2 hnil
      have hvest : res2.2 = vestingCoins := by
        apply IsValid_ext _ _ v2 v1
        intro d
        rw [s1 d, s2 d]
        congr 1
        exact ((hperm.filterMap _).map _).sum_eq.symm
      refine ⟨res2.1, ?_, ?_⟩
      · rw [h2, ← hvest]
      · simp only [List.nil_append] at k1 m1
        rw [k1, m1]
        exact hperm.filterMap _

end app

namespace app

open sdk

/-- The witness of C12: the three accounts of `orderLedger` visited in reverse order. -/
theorem trackingAll_order_independent_witness :
    orderLedger.accounts.Perm orderLedger.accounts.reverse ∧
    trackingAll orderLedger =
      some ([{ address := "A", coins := [⟨denomA, 2000000⟩],
               vesting := some (fun _ => [⟨denomA, 10⟩]) },
             { address := "B", coins := [⟨denomA, 3000000⟩], vesting := none }],
        [⟨denomA, 15⟩, ⟨denomB, 2⟩]) ∧
    ∃ accs2, trackingAll { orderLedger with accounts := orderLedger.accounts.reverse } =
        some (accs2, [⟨denomA, 15⟩, ⟨denomB, 2⟩]) ∧
      List.Perm [{ address := "A", coins := [⟨denomA, 2000000⟩],
                   vesting := some (fun _ => [⟨denomA, 10⟩]) },
                 ({ address := "B", coins := [⟨denomA, 3000000⟩], vesting := none } : Account)]
        accs2 :=
  ⟨(List.reverse_perm _).symm, rfl,
    trackingAll_order_independent orderLedger orderLedger.accounts.reverse _ _
      (List.reverse_perm _).symm (by decide) rfl⟩

/-! ## The exports -/

theorem exportVestingSupply_on_marshal_error (env : Env) (vestingCoins : Coins) (err : String)
    (h : env.marshalCoins vestingCoins = .error err)
    (hw : env.writeFile (FileName.vesting (env.now 0)) [] = none) :
    exportVestingSupply env vestingCoins =
      { files := [(FileName.vesting (env.now 0), [])], errors := [err] } := by
  simp [exportVestingSupply, marshalledBytes, logMarshalError, writeArtifact, h, hw]

/-- C13 (the code writes the artifact of a payload it could not encode): when the
encoding of the vesting total fails, `exportVestingSupply` logs the error and still
writes the vesting file, empty; when the encoding of the ranking of `denomA` fails,
`exportRanking` logs the error and still writes the file of `denomA`, empty, before it
goes on to write the file of `denomB`. -/
theorem exports_write_after_marshal_error :
    failingEnv.marshalCoins [⟨denomA, 15⟩] = .error "cannot encode the vesting total" ∧
    exportVestingSupply failingEnv [⟨denomA, 15⟩] =
      { files := [(FileName.vesting "2020-01-01T00:00:00Z", [])],
        errors := ["cannot encode the vesting total"] } ∧
    ranking twoAccounts denomA = some [⟨"A", 9⟩, ⟨"B", 5⟩] ∧
    failingEnv.marshalRanking [⟨"A", 9⟩, ⟨"B", 5⟩] = .error "cannot encode the ranking" ∧
    (exportRanking failingEnv twoAccounts [denomA, denomB]).map Prod.snd =
      some { files := [(FileName.tracking denomA "2020-01-01T00:00:00Z", []),
                       (FileName.tracking denomB "2020-01-01T00:00:00Z", [7, 0])],
             errors := ["cannot encode the ranking"] } := by
  refine ⟨rfl, by decide, by decide, rfl, by decide⟩

theorem poolAfter_length (denom : Denom) :
    ∀ (round : Nat) (pool : List Account), round ≤ pool.length →
      ∃ poolr, poolAfter denom round pool = some poolr ∧
        poolr.length = pool.length - round := by
  intro round
  induction round with
  | zero =>
    intro pool _
    exact ⟨pool, rfl, rfl⟩
  | succ round ih =>
    intro pool hle
    have hne : pool ≠ [] := by
      intro h
      subst h
      simp at hle
    obtain ⟨_, a, rest, _, h2, _, _, _, hperm⟩ := selectRound_spec denom pool hne
    have hlen : rest.length + 1 = pool.length := by
      have := hperm.length_eq
      simp at this
      omega
    obtain ⟨poolr, g1, g2⟩ := ih rest (by omega)
    refine ⟨poolr, ?_, by omega⟩
    simp only [poolAfter, h2]
    exact g1

theorem scanTop_lt_length (denom : Denom) (pool : List Account) (hne : pool ≠ []) :
    (scanTop denom pool 0 (0, 0, "")).1 < pool.length := by
  obtain ⟨a, h1, _⟩ :=
    scanTop_spec denom pool [] (0, 0, "") (Or.inl rfl) (by simpa using hne)
  simp only [List.nil_append, List.length_nil] at h1
  exact (List.getElem?_eq_some.1 h1).1

theorem ranking_returns (accs : List Account) (denom : Denom) :
    ∃ r, ranking accs denom = some r := by
  obtain ⟨_, _, _, _, h3, _, _⟩ := ranking_spec accs denom
  exact ⟨_, h3⟩

/-- The loop over the denominations returns; its rankings are those built so far and,
for each denomination in turn, the ranking of that denomination. -/
theorem exportRankingFrom_spec (env : Env) (accs : List Account) (denoms : List Denom) :
    ∀ (n : Nat) (state : List (Denom × List ExportAccount) × Trace),
      ∃ out, exportRankingFrom env accs n denoms state = some out ∧
        out.1 = state.1 ++ denoms.map (fun denom => (denom, (ranking accs denom).getD [])) := by
  induction denoms with
  | nil =>
    intro n state
    exact ⟨state, rfl, by simp⟩
  | cons denom rest ih =>
    intro n state
    obtain ⟨r, hr⟩ := ranking_returns accs denom
    simp only [exportRankingFrom, hr]
    obtain ⟨out, h1, h2⟩ := ih (n + 1)
      (state.1 ++ [(denom, r)],
        writeArtifact env (FileName.tracking denom (env.now n))
          (marshalledBytes (env.marshalRanking r))
          { files := state.2.files,
            errors := logMarshalError (env.marshalRanking r) state.2.errors })
    refine ⟨out, h1, ?_⟩
    rw [h2]
    simp [hr]

/-- C14: no round of the selection runs on an empty pool. `exportRanking` returns for
every account list, the empty one included, and every denomination list; and in each of
the `min(1000, n)` rounds the pool holds `n - round` accounts, at least one, so that the
index `topRankerIdx` and the index `len(tmpAccs)-1` are within the pool. -/
theorem exportRanking_rounds_in_bounds (accs : List Account) :
    (∀ (env : Env) (denoms : List Denom), (exportRanking env accs denoms).isSome) ∧
    ∀ (denom : Denom) (round : Nat), round < maxEntries accs →
      (ranking accs denom).isSome ∧
      ∃ pool, poolAfter denom round accs = some pool ∧ pool ≠ [] ∧
        pool.length = accs.length - round ∧
        (scanTop denom pool 0 (0, 0, "")).1 < pool.length ∧
        pool.length - 1 < pool.length := by
  refine ⟨fun env denoms => ?_, fun denom round h => ?_⟩
  · obtain ⟨out, h1, _⟩ := exportRankingFrom_spec env accs denoms 0 ([], ⟨[], []⟩)
    unfold exportRanking
    rw [h1]
    rfl
  · have hle : maxEntries accs ≤ accs.length := by
      rw [maxEntries_eq]
      exact min_le_right _ _
    obtain ⟨r, h3⟩ := ranking_returns accs denom
    obtain ⟨pool, g1, g2⟩ := poolAfter_length denom round accs (by omega)
    have hne : pool ≠ [] := by
      intro e
      subst e
      simp at g2
      omega
    refine ⟨by rw [h3]; rfl, pool, g1, hne, g2, scanTop_lt_length denom pool hne, ?_⟩
    have : 0 < pool.length := List.length_pos.2 hne
    omega

/-- The witness of C14: the last of the three rounds on A, B, C runs on a pool of one. -/
theorem exportRanking_rounds_in_bounds_witness :
    (exportRanking failingEnv [] [denomA, denomB]).isSome ∧
    2 < maxEntries tieAccounts ∧
    (ranking tieAccounts denomA).isSome ∧
      ∃ pool, poolAfter denomA 2 tieAccounts = some pool ∧ pool ≠ [] ∧
        pool.length = tieAccounts.length - 2 ∧
        (scanTop denomA pool 0 (0, 0, "")).1 < pool.length ∧
        pool.length - 1 < pool.length :=
  ⟨(exportRanking_rounds_in_bounds []).1 failingEnv [denomA, denomB], by decide,
    (exportRanking_rounds_in_bounds tieAccounts).2 denomA 2 (by decide)⟩

end app

namespace app

open sdk

namespace memory

/-! ## The writes of the selection -/

theorem set_getLast {α : Type} (pool : List α) (last : α) (i : Nat)
    (hlast : pool.getLast? = some last) :
    (pool.set i last).dropLast ++ [last] = pool.set i last := by
  apply List.dropLast_append_getLast?
  rw [Option.mem_def, List.getLast?_eq_getElem?, List.length_set, List.getElem?_set]
  rw [List.getLast?_eq_getElem?] at hlast
  split_ifs with h1 h2
  · rfl
  · rw [h1] at h2
    have : pool.length - 1 < pool.length := by
      obtain ⟨h, _⟩ := List.getElem?_eq_some.1 hlast
      exact h
    exact absurd this h2
  · exact hlast

theorem set_cells {α : Type} (pool rest : List α) (tail : List (Option α)) (last : α) (i : Nat)
    (hi : i < pool.length) (hlast : pool.getLast? = some last)
    (hrest : (pool.set i last).dropLast = rest) :
    (pool.map some ++ tail).set i (some last) = rest.map some ++ (some last :: tail) := by
  rw [List.set_append_left _ _ (by simpa using hi), ← List.map_set, ← set_getLast pool last i hlast,
    hrest]
  simp


theorem elements_eq {mem : Memory} {t : Slice} {pool : List Account} {tail : List Cell}
    (hlen : t.len = pool.length) (harr : mem.getD t.array [] = pool.map some ++ tail) :
    elements mem t = pool.map some := by
  unfold elements
  rw [harr, hlen]
  exact List.take_left' (by simp)

theorem scanTop_map_some (denom : Denom) (pool : List Account) :
    ∀ (idx : Nat) (top : Nat × Int × AccAddress),
      scanTop denom (pool.map some) idx top = some (app.scanTop denom pool idx top) := by
  induction pool with
  | nil =>
    intro idx top
    rfl
  | cons acc rest ih =>
    intro idx top
    simp only [List.map_cons, scanTop, app.scanTop]
    split_ifs
    · exact ih _ _
    · exact ih _ _

theorem getD_set_self (mem : Memory) (a : Nat) (arr : List Cell) (h : a < mem.length) :
    (mem.set a arr).getD a [] = arr := by
  simp [List.getD_eq_getElem?_getD, h]

theorem getD_set_other (mem : Memory) (a b : Nat) (arr : List Cell) (h : b ≠ a) :
    (mem.set a arr).getD b [] = mem.getD b [] := by
  simp [List.getD_eq_getElem?_getD, List.getElem?_set_ne (Ne.symm h)]

/-- One round on the memory does what the round on the pool does: it gives the same
entry, the slice then holds the pool left, and no array but that of the slice is
written to. -/
theorem selectRound_pool (denom : Denom) (mem : Memory) (t : Slice) (pool : List Account)
    (tail : List Cell) (harray : t.array < mem.length) (hlen : t.len = pool.length)
    (harr : mem.getD t.array [] = pool.map some ++ tail)
    (entry : ExportAccount) (rest : List Account)
    (h : app.selectRound denom pool = some (entry, rest)) :
    ∃ (mem2 : Memory) (tail2 : List Cell),
      selectRound denom mem t = some (entry, mem2, { array := t.array, len := t.len - 1 }) ∧
      mem2.length = mem.length ∧ t.len - 1 = rest.length ∧
      mem2.getD t.array [] = rest.map some ++ tail2 ∧
      ∀ a, a ≠ t.array → mem2.getD a [] = mem.getD a [] := by
  unfold app.selectRound removeSwapLast at h
  cases hlast : pool.getLast? with
  | none => simp [hlast] at h
  | some last =>
    simp only [hlast, Option.some.injEq, Prod.mk.injEq] at h
    obtain ⟨hentry, hrest⟩ := h
    have hne : pool ≠ [] := by
      intro e
      subst e
      simp at hlast
    have hpos : 0 < pool.length := List.length_pos.2 hne
    have hidx : (app.scanTop denom pool 0 (0, 0, "")).1 < pool.length :=
      scanTop_lt_length denom pool hne
    have hlastidx : (pool.map some ++ tail)[pool.length - 1]? = some (some last) := by
      rw [List.getElem?_append_left (by simp; omega), List.getElem?_map]
      rw [List.getLast?_eq_getElem?] at hlast
      rw [hlast]
      rfl
    have hset : (pool.map some ++ tail).set (app.scanTop denom pool 0 (0, 0, "")).1 (some last)
        = rest.map some ++ (some last :: tail) := by
      exact set_cells pool rest tail last _ hidx hlast hrest
    refine ⟨mem.set t.array (rest.map some ++ (some last :: tail)), some last :: tail, ?_,
      by simp, ?_, getD_set_self mem _ _ harray, fun a ha => getD_set_other mem _ _ _ ha⟩
    · unfold selectRound
      rw [elements_eq hlen harr, scanTop_map_some]
      simp only
      rw [if_neg (by omega)]
      unfold index assign
      rw [if_pos (by omega), harr, hlen, hlastidx]
      simp only
      rw [if_pos hidx, hset, hentry]
    · rw [← hrest]
      simp
      omega


/-- The rounds on the memory do what the rounds on the pool do. -/
theorem selectLoop_pool (denom : Denom) :
    ∀ (rounds : Nat) (mem : Memory) (t : Slice) (pool : List Account) (tail : List Cell)
      (out r : List ExportAccount),
      t.array < mem.length → t.len = pool.length →
      mem.getD t.array [] = pool.map some ++ tail →
      app.selectLoop denom rounds pool out = some r →
      ∃ mem2 : Memory, selectLoop denom rounds mem t out = some (r, mem2) ∧
        mem2.length = mem.length ∧
        ∀ a, a ≠ t.array → mem2.getD a [] = mem.getD a [] := by
  intro rounds
  induction rounds with
  | zero =>
    intro mem t pool tail out r _ _ _ h
    simp only [app.selectLoop, Option.some.injEq] at h
    subst h
    exact ⟨mem, rfl, rfl, fun _ _ => rfl⟩
  | succ rounds ih =>
    intro mem t pool tail out r harray hlen harr h
    cases hround : app.selectRound denom pool with
    | none => simp [app.selectLoop, hround] at h
    | some res =>
      obtain ⟨entry, rest⟩ := res
      rw [selectLoop_succ denom rounds pool out entry rest hround] at h
      obtain ⟨mem2, tail2, g1, g2, g3, g4, g5⟩ :=
        selectRound_pool denom mem t pool tail harray hlen harr entry rest hround
      obtain ⟨mem3, k1, k2, k3⟩ :=
        ih mem2 { array := t.array, len := t.len - 1 } rest tail2 (out ++ [entry]) r
          (by rw [g2]; exact harray) g3 g4 h
      refine ⟨mem3, ?_, by rw [k2, g2], fun a ha => by rw [k3 a ha, g5 a ha]⟩
      simp only [selectLoop, g1]
      exact k1

/-- Lines 122-123: after `make` and `copy` the memory has one more array, which holds
the elements of `accs`, and the arrays it had are as they were. -/
theorem make_copy (mem : Memory) (accs : Slice) (pool : List Account) (tail : List Cell)
    (harray : accs.array < mem.length) (hlen : accs.len = pool.length)
    (harr : mem.getD accs.array [] = pool.map some ++ tail) :
    (make mem accs.len).2 = { array := mem.length, len := pool.length } ∧
    copy (make mem accs.len).1 (make mem accs.len).2 accs = mem ++ [pool.map some] := by
  have hget : (mem ++ [List.replicate pool.length (none : Cell)]).getD accs.array []
      = pool.map some ++ tail := by
    rw [← harr, List.getD_eq_getElem?_getD, List.getD_eq_getElem?_getD,
      List.getElem?_append_left harray]
  have hnew : (mem ++ [List.replicate pool.length (none : Cell)]).getD mem.length []
      = List.replicate pool.length none := by
    simp [List.getD_eq_getElem?_getD]
  refine ⟨by simp [make, hlen], ?_⟩
  unfold copy elements make
  simp only [hlen, min_self, hget, hnew]
  rw [List.take_left' (by simp), List.take_of_length_le (by simp)]
  simp

/-- The loop over the denominations on the memory builds the rankings and the trace that
the loop on the account list builds, and writes to no array that was there before. -/
theorem exportRankingFrom_pool (env : Env) (accs : Slice) (pool : List Account)
    (tail : List Cell) (hlen : accs.len = pool.length) (denoms : List Denom) :
    ∀ (n : Nat) (mem : Memory) (state out : List (Denom × List ExportAccount) × Trace),
      accs.array < mem.length → mem.getD accs.array [] = pool.map some ++ tail →
      app.exportRankingFrom env pool n denoms state = some out →
      ∃ mem2 : Memory,
        exportRankingFrom env accs (app.maxEntries pool) n denoms (mem, state.1, state.2)
          = some (mem2, out.1, out.2) ∧
        mem.length ≤ mem2.length ∧
        ∀ a, a < mem.length → mem2.getD a [] = mem.getD a [] := by
  induction denoms with
  | nil =>
    intro n mem state out _ _ h
    simp only [app.exportRankingFrom, Option.some.injEq] at h
    subst h
    exact ⟨mem, rfl, le_refl _, fun _ _ => rfl⟩
  | cons denom rest ih =>
    intro n mem state out harray harr h
    cases hr : ranking pool denom with
    | none => simp [app.exportRankingFrom, hr] at h
    | some r =>
      simp only [app.exportRankingFrom, hr] at h
      obtain ⟨hmade, hcopy⟩ := make_copy mem accs pool tail harray hlen harr
      rw [hmade] at hcopy
      obtain ⟨mem2, g1, g2, g3⟩ :=
        selectLoop_pool denom (app.maxEntries pool) (mem ++ [pool.map some])
          { array := mem.length, len := pool.length } pool [] [] r (by simp) rfl
          (by simp [List.getD_eq_getElem?_getD]) hr
      have hlen2 : mem2.length = mem.length + 1 := by
        rw [g2]
        simp
      have hkeep : ∀ a, a < mem.length → mem2.getD a [] = mem.getD a [] := by
        intro a ha
        rw [g3 a (by simp only [ne_eq]; omega), List.getD_eq_getElem?_getD,
          List.getD_eq_getElem?_getD, List.getElem?_append_left ha]
      obtain ⟨mem3, k1, k2, k3⟩ := ih (n + 1) mem2 _ out (by omega)
        (by rw [hkeep _ harray]; exact harr) h
      refine ⟨mem3, ?_, by omega, fun a ha => by rw [k3 a (by omega), hkeep a ha]⟩
      simp only [exportRankingFrom, hmade, hcopy, g1]
      exact k1

theorem maxEntries_pool (accs : Slice) (pool : List Account) (hlen : accs.len = pool.length) :
    maxEntries accs = app.maxEntries pool := by
  unfold maxEntries app.maxEntries
  rw [hlen]

/-- C15: the removals made while selecting for one denomination leave the account list
used for every other denomination unchanged. Run on a memory in which the slice `accs`
holds the accounts `pool`, `exportRanking` returns; it has written to no array that was
there before the call, so `accs` still holds `pool`; the rankings and the trace are those
built from the account list taken as a value, one ranking for each denomination in the
order of the list; and the ranking built for a denomination is the ranking of the account
list in that denomination, the one `exportRanking` builds when the denomination is the
only one in the list. -/
theorem exportRanking_denominations_independent (env : Env) (mem : Memory) (accs : Slice)
    (pool : List Account) (denoms : List Denom)
    (harray : accs.array < mem.length)
    (hcap : accs.len ≤ (mem.getD accs.array []).length)
    (hpool : elements mem accs = pool.map some) :
    ∃ (mem2 : Memory) (rankings : List (Denom × List ExportAccount)) (trace : Trace),
      exportRanking env mem accs denoms = some (mem2, rankings, trace) ∧
      app.exportRanking env pool denoms = some (rankings, trace) ∧
      (∀ a, a < mem.length → mem2.getD a [] = mem.getD a []) ∧
      elements mem2 accs = pool.map some ∧
      rankings.map Prod.fst = denoms ∧
      ∀ (i : Nat) (denom : Denom) (r : List ExportAccount), rankings[i]? = some (denom, r) →
        ranking pool denom = some r ∧
        ∃ (mem1 : Memory) (trace1 : Trace),
          exportRanking env mem accs [denom] = some (mem1, [(denom, r)], trace1) := by
  have hlen : accs.len = pool.length := by
    have h := congrArg List.length hpool
    unfold elements at h
    rw [List.length_take, List.length_map, min_eq_left hcap] at h
    exact h
  have harr : mem.getD accs.array [] = pool.map some ++ (mem.getD accs.array []).drop accs.len := by
    rw [← hpool]
    exact (List.take_append_drop _ _).symm
  have hrun : ∀ ds : List Denom, ∃ (memd : Memory) (outd : List (Denom × List ExportAccount) × Trace),
      exportRanking env mem accs ds = some (memd, outd.1, outd.2) ∧
      app.exportRanking env pool ds = some outd ∧
      (∀ a, a < mem.length → memd.getD a [] = mem.getD a []) ∧
      outd.1 = ds.map (fun denom => (denom, (ranking pool denom).getD [])) := by
    intro ds
    obtain ⟨outd, h1, h2⟩ := exportRankingFrom_spec env pool ds 0 ([], ⟨[], []⟩)
    obtain ⟨memd, g1, _, g3⟩ :=
      exportRankingFrom_pool env accs pool _ hlen ds 0 mem ([], ⟨[], []⟩) outd harray harr h1
    refine ⟨memd, outd, ?_, h1, g3, by simpa using h2⟩
    unfold exportRanking
    rw [maxEntries_pool accs pool hlen]
    exact g1
  obtain ⟨mem2, out, h1, h2, h3, h4⟩ := hrun denoms
  refine ⟨mem2, out.1, out.2, h1, h2, h3, ?_, ?_, ?_⟩
  · unfold elements
    rw [h3 _ harray]
    exact hpool
  · rw [h4, List.map_map]
    exact List.map_id _
  · intro i denom r hi
    rw [h4, List.getElem?_map] at hi
    obtain ⟨d, _, hd⟩ := Option.map_eq_some'.1 hi
    simp only [Prod.mk.injEq] at hd
    obtain ⟨r2, hr2⟩ := ranking_returns pool denom
    have hr : r2 = r := by
      rw [← hd.2, hd.1, hr2]
      rfl
    subst hr
    obtain ⟨mem1, out1, k1, _, _, k4⟩ := hrun [denom]
    refine ⟨hr2, mem1, out1.2, ?_⟩
    rw [k1, k4]
    simp only [List.map_cons, List.map_nil, hr2, Option.getD_some]

/-- The witness of C15: the accounts A and B in the array 0, ranked for two
denominations. The selection for the first denomination has written to the array 1, its
own copy, which holds B twice afterwards; the array 0 is as it was. -/
theorem exportRanking_denominations_independent_witness :
    (exportRanking failingEnv [twoAccounts.map some] ⟨0, 2⟩ [denomA, denomB]).map
        (fun res => res.1.map (fun arr => arr.map (fun cell => cell.map Account.address)))
      = some [[some "A", some "B"], [some "B", some "B"], [some "A", some "B"]] ∧
    ∃ (mem2 : Memory) (rankings : List (Denom × List ExportAccount)) (trace : Trace),
      exportRanking failingEnv [twoAccounts.map some] ⟨0, 2⟩ [denomA, denomB]
        = some (mem2, rankings, trace) ∧
      app.exportRanking failingEnv twoAccounts [denomA, denomB] = some (rankings, trace) ∧
      (∀ a, a < [twoAccounts.map some].length →
        mem2.getD a [] = [twoAccounts.map some].getD a []) ∧
      elements mem2 ⟨0, 2⟩ = twoAccounts.map some ∧
      rankings.map Prod.fst = [denomA, denomB] ∧
      ∀ (i : Nat) (denom : Denom) (r : List ExportAccount), rankings[i]? = some (denom, r) →
        ranking twoAccounts denom = some r ∧
        ∃ (mem1 : Memory) (trace1 : Trace),
          exportRanking failingEnv [twoAccounts.map some] ⟨0, 2⟩ [denom]
            = some (mem1, [(denom, r)], trace1) :=
  ⟨by decide,
    exportRanking_denominations_independent failingEnv [twoAccounts.map some] ⟨0, 2⟩
      twoAccounts [denomA, denomB] (by decide) (by decide) rfl⟩

end memory

end app

namespace wasm

/-! ## The query handlers of `x/wasm/client/rest/query.go` -/

/-- The three contract handlers stop at the first error: whenever the encoding of the
parameters fails they write exactly one error response, send no query and write no
success response, and whenever the node query fails they write exactly one error
response and no success response. -/
theorem contract_handlers_stop_on_error (cli : Client) (r : Request) (addr : String)
    (hh : r.heightOk = true) (ha : cli.accAddressFromBech32 r.pathVar = .ok addr) :
    (∀ err, cli.marshalJSON (QueryParams.contractAddress addr) = .error err →
      queryContractInfoHandlerFn cli r = [Event.errorResponse err]) ∧
    (∀ err, cli.marshalJSON (QueryParams.contract addr r.queryMsg) = .error err →
      queryContractStoreHandlerFn cli r = [Event.errorResponse err]) ∧
    (∀ err, cli.marshalJSON (QueryParams.rawStore addr (cli.encodeKey r.key ++ r.subkey))
        = .error err →
      queryRawStoreHandlerFn cli r = [Event.errorResponse err]) ∧
    (∀ bz err, cli.marshalJSON (QueryParams.contractAddress addr) = .ok bz →
      (cli.queryWithData Route.getContractInfo bz).err = some err →
      queryContractInfoHandlerFn cli r =
        [Event.queryNode Route.getContractInfo bz, Event.errorResponse err]) ∧
    (∀ bz err, cli.marshalJSON (QueryParams.contract addr r.queryMsg) = .ok bz →
      (cli.queryWithData Route.contractStore bz).err = some err →
      queryContractStoreHandlerFn cli r =
        [Event.queryNode Route.contractStore bz, Event.errorResponse err]) ∧
    (∀ bz err,
      cli.marshalJSON (QueryParams.rawStore addr (cli.encodeKey r.key ++ r.subkey)) = .ok bz →
      (cli.queryWithData Route.rawStore bz).err = some err →
      queryRawStoreHandlerFn cli r =
        [Event.queryNode Route.rawStore bz, Event.errorResponse err]) := by
  refine ⟨?_, ?_, ?_, ?_, ?_, ?_⟩
  · intro err h
    simp [queryContractInfoHandlerFn, hh, ha, queryAndRespond, h]
  · intro err h
    simp [queryContractStoreHandlerFn, hh, ha, queryAndRespond, h]
  · intro err h
    simp [queryRawStoreHandlerFn, hh, ha, queryAndRespond, h]
  · intro bz err h hq
    simp [queryContractInfoHandlerFn, hh, ha, queryAndRespond, h, hq]
  · intro bz err h hq
    simp [queryContractStoreHandlerFn, hh, ha, queryAndRespond, h, hq]
  · intro bz err h hq
    simp [queryRawStoreHandlerFn, hh, ha, queryAndRespond, h, hq]

/-- The handler `queryCodeInfoHandlerFn` goes on after an error, whatever the client:
after a failed encoding it still queries the node, with nil bytes, and still calls
`PostProcessResponse`; after a failed node query it still calls `PostProcessResponse`. -/
theorem queryCodeInfoHandlerFn_goes_on (cli : Client) (r : Request) (codeID : Nat)
    (hh : r.heightOk = true) (hp : cli.parseUint r.pathVar = .ok codeID) :
    (∀ err, cli.marshalJSON (QueryParams.codeID codeID) = .error err →
      nodeQueries (queryCodeInfoHandlerFn cli r) = 1 ∧
      successResponses (queryCodeInfoHandlerFn cli r) = 1) ∧
    (∀ bz err, cli.marshalJSON (QueryParams.codeID codeID) = .ok bz →
      (cli.queryWithData Route.getCodeInfo bz).err = some err →
      queryCodeInfoHandlerFn cli r =
        [Event.queryNode Route.getCodeInfo bz, Event.errorResponse err,
          Event.postProcess (cli.queryWithData Route.getCodeInfo bz).height
            (Payload.bytes (cli.queryWithData Route.getCodeInfo bz).res)]) := by
  constructor
  · intro err h
    cases hq : (cli.queryWithData Route.getCodeInfo []).err <;>
      simp [queryCodeInfoHandlerFn, hh, hp, h, hq, marshalledBytes, nodeQueries,
        successResponses]
  · intro bz err h hq
    simp [queryCodeInfoHandlerFn, hh, hp, h, hq, marshalledBytes]

/-- C16 (the handler of the code query does not return after an error): when the node
query fails, `queryCodeInfoHandlerFn` writes the error response and then calls
`PostProcessResponse`; when the encoding of the parameters fails, it writes the error
response, then queries the node with nil bytes and calls `PostProcessResponse`. On the
same clients the three contract handlers write the one error response and stop. -/
theorem queryCodeInfoHandlerFn_writes_after_error :
    queryCodeInfoHandlerFn queryFailingClient codeRequest =
      [Event.queryNode Route.getCodeInfo [1], Event.errorResponse "unknown code",
        Event.postProcess 0 (Payload.bytes [])] ∧
    errorResponses (queryCodeInfoHandlerFn queryFailingClient codeRequest) = 1 ∧
    successResponses (queryCodeInfoHandlerFn queryFailingClient codeRequest) = 1 ∧
    queryCodeInfoHandlerFn marshalFailingClient codeRequest =
      [Event.errorResponse "cannot encode", Event.queryNode Route.getCodeInfo [],
        Event.postProcess 5 (Payload.bytes [2])] ∧
    nodeQueries (queryCodeInfoHandlerFn marshalFailingClient codeRequest) = 1 ∧
    successResponses (queryCodeInfoHandlerFn marshalFailingClient codeRequest) = 1 ∧
    queryContractInfoHandlerFn queryFailingClient codeRequest =
      [Event.queryNode Route.getContractInfo [1], Event.errorResponse "unknown code"] ∧
    queryContractInfoHandlerFn marshalFailingClient codeRequest =
      [Event.errorResponse "cannot encode"] ∧
    queryContractStoreHandlerFn marshalFailingClient codeRequest =
      [Event.errorResponse "cannot encode"] ∧
    queryRawStoreHandlerFn marshalFailingClient codeRequest =
      [Event.errorResponse "cannot encode"] := by
  decide

end wasm

namespace simulation

open sdk

/-! ## The generators of `x/market/simulation/genesis.go` -/

/-- C17: for every random source, `GenMinSpread` and `GenIlliquidTobinTaxRate` return a
decimal between 0.010 and 0.109, `GenTobinTax` a decimal between 0.001 and 0.100,
`GenBasePool` at least 100000000 and `GenPoolRecoveryPeriod` at least 100; each of the
three rates lies strictly between 0 and 1. -/
theorem generated_parameters_in_range (r : Rand) :
    ((NewDecWithPrec 10 3).int ≤ (GenMinSpread r).int ∧
      (GenMinSpread r).int ≤ (NewDecWithPrec 109 3).int) ∧
    ((NewDecWithPrec 10 3).int ≤ (GenIlliquidTobinTaxRate r).int ∧
      (GenIlliquidTobinTaxRate r).int ≤ (NewDecWithPrec 109 3).int) ∧
    ((NewDecWithPrec 1 3).int ≤ (GenTobinTax r).int ∧
      (GenTobinTax r).int ≤ (NewDecWithPrec 100 3).int) ∧
    (NewDec 100000000).int ≤ (GenBasePool r).int ∧
    100 ≤ GenPoolRecoveryPeriod r ∧
    (0 < (GenMinSpread r).int ∧ (GenMinSpread r).int < (NewDec 1).int) ∧
    (0 < (GenIlliquidTobinTaxRate r).int ∧
      (GenIlliquidTobinTaxRate r).int < (NewDec 1).int) ∧
    (0 < (GenTobinTax r).int ∧ (GenTobinTax r).int < (NewDec 1).int) := by
  have h100 : r.Intn 100 < 100 := r.Intn_lt 100 (by decide)
  have e2 : (10 : Int) ^ (Precision - 2) = 10000000000000000 := by decide
  have e3 : (10 : Int) ^ (Precision - 3) = 1000000000000000 := by decide
  simp only [GenMinSpread, GenIlliquidTobinTaxRate, GenTobinTax, GenBasePool,
    GenPoolRecoveryPeriod, NewDecWithPrec, NewDec, Dec.Add, e2, e3, precisionReuse]
  omega

end simulation
